import Mathlib

/-!
# Verification of the net-reduce CIDR prefix-reduction engine

Shallow embedding of the prefix-reduction engine of the `net-reduce`
repository (`src/reduce_trie.rs`, `src/reduce_prefix_list.rs`,
`src/reduce.rs`) together with proofs of the specified properties.

An `IpNet` is an address family, a fixed-width address (32 bits for IPv4,
128 bits for IPv6, represented as a `Nat` below the width bound) and a
prefix length.  As in the `ipnet` Rust crate, the stored address may carry
host bits (bits below the prefix length need not be zero) and structural
equality compares the raw address.

The trie (`Node`) mirrors `struct Node` of `reduce_trie.rs`: two optional
child slots and an optional terminal marker.  Mutation by `&mut` pointer
walking in the Rust source is embedded as structurally recursive functions
that rebuild the spine of the tree.

Text parsing and serialization are external collaborators of the engine
(spec section 1 and 6); `reduce_cidrs` is embedded with the line type and
the parse/render collaborators as parameters, constrained at their
boundary exactly as the spec describes them.
-/



/-- Address family of a prefix (`IpNet::V4` / `IpNet::V6`). -/
inductive Family where
  | v4
  | v6
deriving DecidableEq, Repr

/-- Bit width of addresses of a family (`max_prefix_len` in `ipnet`). -/
def Family.width : Family → Nat
  | .v4 => 32
  | .v6 => 128

/-- An IP network: family, raw address and prefix length, mirroring
`ipnet::IpNet`.  The raw address may carry host bits. -/
structure IpNet where
  family : Family
  addr : Nat
  len : Nat
deriving DecidableEq, Repr

/-- A structurally valid prefix: address within the family's width and
prefix length at most the family's width.  This is what the `ipnet`
parser can produce. -/
def ValidPfx (p : IpNet) : Prop :=
  p.addr < 2 ^ p.family.width ∧ p.len ≤ p.family.width

instance (p : IpNet) : Decidable (ValidPfx p) := by
  unfold ValidPfx; infer_instance

/-- Bit `pos` of the address of `p`, counting from the most significant
bit (`get_bit` in `reduce_trie.rs`, which indexes big-endian octets). -/
def get_bit (p : IpNet) (pos : Nat) : Bool :=
  p.addr.testBit (p.family.width - 1 - pos)

/-- The first `n` bits of the address of `p`, as a number (the address
shifted right so that only the `n` leading bits remain). -/
def upperBits (p : IpNet) (n : Nat) : Nat :=
  p.addr / 2 ^ (p.family.width - n)

/-- The network address of `p`: the raw address with host bits cleared
(`IpNet::network()` in the `ipnet` crate). -/
def network (p : IpNet) : Nat :=
  p.addr / 2 ^ (p.family.width - p.len) * 2 ^ (p.family.width - p.len)

/-- `ipnet`'s `IpNet::contains(&IpAddr)`: the address `a` (of family `f`)
lies in the range of `e`.  Families must agree and the leading `e.len`
bits of `a` must equal those of `e`'s address. -/
def containsAddr (e : IpNet) (f : Family) (a : Nat) : Prop :=
  e.family = f ∧ a / 2 ^ (e.family.width - e.len) = e.addr / 2 ^ (e.family.width - e.len)

instance (e : IpNet) (f : Family) (a : Nat) : Decidable (containsAddr e f a) := by
  unfold containsAddr; infer_instance

/-- `q` strictly covers `p`: same family, strictly shorter prefix length,
and `q` contains `p`'s network address.  This is the coverage relation the
spec describes ("covered by a broader (less-specific) entry"). -/
def covers (q p : IpNet) : Prop :=
  q.len < p.len ∧ containsAddr q p.family (network p)

instance (q p : IpNet) : Decidable (covers q p) := by
  unfold covers; infer_instance

/-- `p` is minimal in `S`: no member of `S` strictly covers it. -/
def Minim (S : List IpNet) (p : IpNet) : Prop :=
  ∀ q ∈ S, ¬ covers q p

instance (S : List IpNet) (p : IpNet) : Decidable (Minim S p) := by
  unfold Minim; infer_instance

/-- `S` identifies prefixes by their network: two members with the same
family, length and network address are equal (no two distinct raw
spellings of the same network block).  Network-canonical inputs (host
bits zero) satisfy this. -/
def NoDupNet (S : List IpNet) : Prop :=
  ∀ p ∈ S, ∀ q ∈ S, p.family = q.family → p.len = q.len → network p = network q → p = q

instance (S : List IpNet) : Decidable (NoDupNet S) := by
  unfold NoDupNet; infer_instance

/-- A trie node (`struct Node` in `reduce_trie.rs`): two optional child
slots (bit 0 and bit 1) and an optional terminal prefix marker. -/
inductive Node where
  | mk : Option Node → Option Node → Option IpNet → Node

/-- Child slot for bit 0. -/
def Node.c0 : Node → Option Node
  | .mk a _ _ => a

/-- Child slot for bit 1. -/
def Node.c1 : Node → Option Node
  | .mk _ b _ => b

/-- The optional terminal prefix marker of a node. -/
def Node.pfx : Node → Option IpNet
  | .mk _ _ f => f

/-- The child slot selected by a bit. -/
def childOf (n : Node) (b : Bool) : Option Node :=
  if b then n.c1 else n.c0

/-- `Node::default()`: an empty node. -/
def Node.empty : Node := .mk none none none

/-- The subtree reached from `n` by following a path of bits; `none` when
a child slot along the path is missing. -/
def subtreeAt : Node → List Bool → Option Node
  | n, [] => some n
  | n, b :: bs =>
    match childOf n b with
    | none => none
    | some c => subtreeAt c bs

/-- The terminal marker stored at the end of a path, when the path exists. -/
def termAt (n : Node) (path : List Bool) : Option IpNet :=
  (subtreeAt n path).bind Node.pfx

/-- The walk path of the first `i` bits of prefix `p`. -/
def pathTo (p : IpNet) (i : Nat) : List Bool :=
  (List.range i).map (get_bit p)

/-- One step of `ReduceTrie::find_insert_leaf`: walk from `node` with
`r` remaining levels, current depth `pos` (so `pos + r = p.len` at the
top-level call).  Returns the node where insertion would continue,
together with its depth, or `none` when an already-terminal node is met
before descending past it. -/
def filAux (p : IpNet) : Nat → Nat → Node → Option (Node × Nat)
  | 0, pos, node => some (node, pos)
  | r + 1, pos, node =>
    if (node.pfx).isSome then none
    else
      match childOf node (get_bit p pos) with
      | none => some (node, pos)
      | some c => filAux p r (pos + 1) c

/-- `ReduceTrie::find_insert_leaf`. -/
def find_insert_leaf (root : Node) (p : IpNet) : Option (Node × Nat) :=
  filAux p p.len 0 root

/-- The recursive core of `ReduceTrie::insert_into_node`, rebuilding the
spine that the Rust code mutates in place.  `r` is the number of address
bits still to consume (the current depth is `p.len - r`).  Returns the
new subtree, or `none` when the insertion is aborted because a node with
a terminal marker was met before descending past it. -/
def insert_go (p : IpNet) : Nat → Node → Option Node
  | 0, _ => some (Node.mk none none (some p))
  | r + 1, node =>
    if (node.pfx).isSome then none
    else
      let b := get_bit p (p.len - (r + 1))
      let c := (childOf node b).getD Node.empty
      match insert_go p r c with
      | none => none
      | some c' =>
        if b then some (Node.mk node.c0 (some c') node.pfx)
        else some (Node.mk (some c') node.c1 node.pfx)

/-- `ReduceTrie::insert_into_node`: returns the updated root and whether
the prefix was inserted (`false` means it was discarded as covered and
the trie is unchanged). -/
def insert_into_node (root : Node) (p : IpNet) : Node × Bool :=
  match insert_go p p.len root with
  | none => (root, false)
  | some r => (r, true)

/-- The root-updating step used when folding insertions over a list. -/
def insStep (root : Node) (p : IpNet) : Node :=
  (insert_into_node root p).1

/-- `sort_prefixes` in `reduce_trie.rs`: group prefixes by length and
emit the groups in ascending length order; inside a group the input
order is kept (the per-key vectors of the `HashMap` preserve push
order, and only the keys are sorted). -/
def sort_prefixes (l : List IpNet) : List IpNet :=
  (((l.map IpNet.len).dedup).insertionSort (· ≤ ·)).flatMap
    (fun k => l.filter (fun p => p.len = k))

/-- A per-family table (`struct Table`): a trie root plus the surviving
host prefixes. -/
structure Table where
  root : Node
  hosts : List IpNet

/-- `ReduceTrie::build_for_family`: sort by ascending length, insert the
network prefixes (length strictly below the family width) into the trie,
then keep exactly the host prefixes whose coverage walk finds a free
leaf. -/
def build_for_family (l : List IpNet) : Table :=
  let sorted := sort_prefixes l
  let parts := sorted.partition (fun p => p.len < p.family.width)
  let root := parts.1.foldl insStep Node.empty
  let hosts := parts.2.filter (fun h => (find_insert_leaf root h).isSome)
  ⟨root, hosts⟩

/-- The reducing trie (`struct ReduceTrie`): one table per family. -/
structure ReduceTrie where
  ipv4 : Table
  ipv6 : Table

/-- `ReduceTrie::with_prefixes`: partition by family and build each
family's table independently. -/
def ReduceTrie.with_prefixes (l : List IpNet) : ReduceTrie :=
  let parts := l.partition (fun p => p.family = Family.v4)
  ⟨build_for_family parts.1, build_for_family parts.2⟩

/-- `collect_prefixes` in `reduce_trie.rs`: emit the terminal marker of a
node and stop, or recurse into the existing children (bit 0 first). -/
def collect_prefixes : Node → List IpNet
  | .mk _ _ (some q) => [q]
  | .mk c0 c1 none =>
    (match c0 with
     | some n => collect_prefixes n
     | none => []) ++
    (match c1 with
     | some n => collect_prefixes n
     | none => [])

/-- `ReduceTrie::get_all_prefixes`: collected IPv4 trie entries, then
IPv6 trie entries, then the IPv4 and IPv6 host survivors. -/
def ReduceTrie.get_all_prefixes (t : ReduceTrie) : List IpNet :=
  collect_prefixes t.ipv4.root ++ collect_prefixes t.ipv6.root ++
    t.ipv4.hosts ++ t.ipv6.hosts

/-- `reduce_cidrs` in `reduce.rs`.  Reading lines, textual parsing and
serialization are external collaborators of the engine (spec sections 1
and 6), so the line type `σ` and the parse/render collaborators are
parameters; the engine body is exactly the source: parse each line
(silently dropping failures), reduce, render each survivor. -/
def reduce_cidrs {σ : Type} (parse : σ → Option IpNet) (render : IpNet → σ)
    (lines : List σ) : List σ :=
  ((ReduceTrie.with_prefixes (lines.filterMap parse)).get_all_prefixes).map render

/-- The alternative reducer (`struct ReducePrefixList`): one plain list
per family. -/
structure ReducePrefixList where
  ipv4 : List IpNet
  ipv6 : List IpNet

/-- `ReducePrefixList::new`. -/
def ReducePrefixList.new : ReducePrefixList := ⟨[], []⟩

/-- `ReducePrefixList::insert`: scan the family's list; skip the prefix
when an existing entry contains its network address, append it
otherwise. -/
def ReducePrefixList.insert (st : ReducePrefixList) (p : IpNet) :
    ReducePrefixList × Bool :=
  match p.family with
  | .v4 =>
    if st.ipv4.any (fun e => decide (containsAddr e p.family (network p))) then
      (st, false)
    else
      (⟨st.ipv4 ++ [p], st.ipv6⟩, true)
  | .v6 =>
    if st.ipv6.any (fun e => decide (containsAddr e p.family (network p))) then
      (st, false)
    else
      (⟨st.ipv4, st.ipv6 ++ [p]⟩, true)

/-- `ReducePrefixList::with_prefixes`: insert in ascending-length order
(`sort_prefixes` in `reduce_prefix_list.rs` is identical to the one in
`reduce_trie.rs`). -/
def ReducePrefixList.with_prefixes (l : List IpNet) : ReducePrefixList :=
  (sort_prefixes l).foldl (fun st p => (st.insert p).1) ReducePrefixList.new

/-- `ReducePrefixList::get_all_prefixes`. -/
def ReducePrefixList.get_all_prefixes (st : ReducePrefixList) : List IpNet :=
  st.ipv4 ++ st.ipv6

/-- The remaining walk path of `p` when `r` levels are left to consume
(the bits at positions `p.len - r` up to `p.len - 1`). -/
def sufBits (p : IpNet) (r : Nat) : List Bool :=
  (List.range r).map (fun j => get_bit p (p.len - r + j))

/-- The structural invariant of claim C6, as an executable check: a node
carrying a terminal marker has both child slots empty, recursively. -/
def node_ok : Node → Bool
  | .mk c0 c1 pf =>
    (!pf.isSome || (c0.isNone && c1.isNone)) &&
    (match c0 with
     | some n => node_ok n
     | none => true) &&
    (match c1 with
     | some n => node_ok n
     | none => true)

/-- The walk path of `i` bits of `p` starting at depth `pos`. -/
def walkPath (p : IpNet) (pos i : Nat) : List Bool :=
  (List.range i).map (fun j => get_bit p (pos + j))

/-- The exact trie invariant: terminal markers are exactly the minimal
members of the inserted set, each sitting at the path of its own bits. -/
def TrieExact (S : List IpNet) (root : Node) : Prop :=
  ∀ path q, termAt root path = some q ↔ (q ∈ S ∧ Minim S q ∧ path = pathTo q q.len)

/-- The weak trie invariant: every terminal marker is an inserted prefix
sitting at the path of its own bits. -/
def TrieSub (S : List IpNet) (root : Node) : Prop :=
  ∀ path q, termAt root path = some q → q ∈ S ∧ path = pathTo q q.len

/-- `q` contains the network address of `x`, with `q` no longer than
`x`, phrased via walk paths. -/
def containsNet (q x : IpNet) : Prop :=
  q.family = x.family ∧ q.len ≤ x.len ∧ pathTo q q.len = pathTo x q.len

/-- The container invariant: every processed prefix has a terminal
marker containing its network. -/
def TrieCont (S : List IpNet) (root : Node) : Prop :=
  ∀ x ∈ S, ∃ q, (∃ π, termAt root π = some q) ∧ containsNet q x

/-- The network (non-host) part of a family's sorted input. -/
def netsOf (l : List IpNet) : List IpNet :=
  ((sort_prefixes l).partition (fun p => p.len < p.family.width)).1

/-- The host part of a family's sorted input. -/
def hostsIn (l : List IpNet) : List IpNet :=
  ((sort_prefixes l).partition (fun p => p.len < p.family.width)).2

/-- The IPv4 part of the input (first component of the family
partition in `with_prefixes`). -/
def fam4 (l : List IpNet) : List IpNet :=
  (l.partition (fun p => p.family = Family.v4)).1

/-- The IPv6 part of the input. -/
def fam6 (l : List IpNet) : List IpNet :=
  (l.partition (fun p => p.family = Family.v4)).2

/-- The invariant of the linear-scan reducer: each family list holds
exactly the minimal processed prefixes of that family. -/
def RInv (S : List IpNet) (st : ReducePrefixList) : Prop :=
  (∀ x, x ∈ st.ipv4 ↔ (x ∈ S ∧ x.family = Family.v4 ∧ Minim S x)) ∧
  (∀ x, x ∈ st.ipv6 ↔ (x ∈ S ∧ x.family = Family.v6 ∧ Minim S x))

/-- 10.0.0.0/8. -/
def cxA1 : IpNet := ⟨Family.v4, 167772160, 8⟩

/-- 10.0.0.1/8: the same /8 network spelled with a host bit set (the
`ipnet` parser accepts and keeps host bits). -/
def cxA2 : IpNet := ⟨Family.v4, 167772161, 8⟩

/-- 192.168.0.0/16. -/
def cxC1 : IpNet := ⟨Family.v4, 3232235520, 16⟩

/-- 192.168.0.1/16: the same /16 network spelled with a host bit set. -/
def cxC2 : IpNet := ⟨Family.v4, 3232235521, 16⟩

/-- A concrete instance of the parsing collaborator covering the two
lines used in the permutation counterexample. -/
def c8parse : String → Option IpNet := fun s =>
  if s = "10.0.0.0/8" then some cxA1
  else if s = "10.0.0.1/8" then some cxA2
  else none

/-- A concrete instance of the serialization collaborator (injective on
prefixes: raw address and length in decimal). -/
def c8render : IpNet → String := fun p =>
  toString p.addr ++ "/" ++ toString p.len

/-- The identity-line collaborator pair used in witnesses: a line is a
prefix itself, parsing accepts exactly the valid ones. -/
def idParse : IpNet → Option IpNet := fun p =>
  if ValidPfx p then some p else none

theorem div_pow_eq_iff_testBit {m : Nat} {x y : Nat} :
    x / 2 ^ m = y / 2 ^ m ↔ ∀ i, m ≤ i → x.testBit i = y.testBit i := by
  constructor
  · intro h i hi
    have hx' : x.testBit i = (x >>> m).testBit (i - m) := by
      rw [Nat.testBit_shiftRight]
      congr 1
      omega
    have hy' : y.testBit i = (y >>> m).testBit (i - m) := by
      rw [Nat.testBit_shiftRight]
      congr 1
      omega
    rw [hx', hy', Nat.shiftRight_eq_div_pow, Nat.shiftRight_eq_div_pow, h]
  · intro h
    have : x >>> m = y >>> m := by
      apply Nat.eq_of_testBit_eq
      intro j
      rw [Nat.testBit_shiftRight, Nat.testBit_shiftRight]
      exact h (m + j) (Nat.le_add_right _ _)
    rwa [Nat.shiftRight_eq_div_pow, Nat.shiftRight_eq_div_pow] at this

theorem testBit_high_false {w : Nat} {x : Nat} (hx : x < 2 ^ w) {i : Nat} (hi : w ≤ i) :
    x.testBit i = false :=
  Nat.testBit_lt_two_pow (lt_of_lt_of_le hx (Nat.pow_le_pow_right (by omega) hi))

/-- Agreement of the leading `n` bits is agreement of `get_bit` at all
positions below `n`, for valid prefixes of equal family. -/
theorem upperBits_eq_iff_bits {q p : IpNet} (hq : ValidPfx q) (hp : ValidPfx p)
    (hf : q.family = p.family) {n : Nat} (hn : n ≤ p.family.width) :
    upperBits q n = upperBits p n ↔ ∀ j, j < n → get_bit q j = get_bit p j := by
  unfold upperBits get_bit
  rw [hf]
  rw [div_pow_eq_iff_testBit]
  constructor
  · intro h j hj
    exact h (p.family.width - 1 - j) (by omega)
  · intro h i hi
    by_cases hiw : i < p.family.width
    · have hj : p.family.width - 1 - i < n := by omega
      have := h (p.family.width - 1 - i) hj
      have hidx : p.family.width - 1 - (p.family.width - 1 - i) = i := by omega
      rwa [hidx] at this
    · rw [testBit_high_false (hf ▸ hq.1) (by omega),
        testBit_high_false hp.1 (by omega)]

/-- Truncating to the network address is invisible at any coarser
granularity. -/
theorem network_div_eq {p : IpNet} {m : Nat} (hm : p.family.width - p.len ≤ m) :
    network p / 2 ^ m = p.addr / 2 ^ m := by
  unfold network
  obtain ⟨k, hk⟩ := Nat.exists_eq_add_of_le hm
  rw [hk, pow_add, ← Nat.div_div_eq_div_mul, ← Nat.div_div_eq_div_mul,
    Nat.mul_div_cancel _ (Nat.pos_pow_of_pos _ (by omega))]

/-- The coverage relation, characterized bitwise: same family, strictly
shorter length, agreement on the covering prefix's bits. -/
theorem covers_iff_bits {q p : IpNet} (hq : ValidPfx q) (hp : ValidPfx p) :
    covers q p ↔
      q.family = p.family ∧ q.len < p.len ∧ ∀ j, j < q.len → get_bit q j = get_bit p j := by
  unfold covers containsAddr
  constructor
  · rintro ⟨hlen, hf, hdiv⟩
    refine ⟨hf, hlen, ?_⟩
    rw [← upperBits_eq_iff_bits hq hp hf (le_trans (le_of_lt hlen) hp.2)]
    unfold upperBits
    rw [hf] at hdiv ⊢
    rw [← hdiv, network_div_eq (Nat.sub_le_sub_left (le_of_lt hlen) _)]
  · rintro ⟨hf, hlen, hbits⟩
    refine ⟨hlen, hf, ?_⟩
    have := (upperBits_eq_iff_bits hq hp hf (le_trans (le_of_lt hlen) hp.2)).mpr hbits
    unfold upperBits at this
    rw [hf] at this ⊢
    rw [network_div_eq (Nat.sub_le_sub_left (le_of_lt hlen) _)]
    exact this.symm

theorem walkPath_succ (p : IpNet) (pos i : Nat) :
    walkPath p pos (i + 1) = get_bit p pos :: walkPath p (pos + 1) i := by
  unfold walkPath
  rw [List.range_succ_eq_map, List.map_cons, List.map_map]
  refine congrArg₂ _ (by rw [Nat.add_zero]) (List.map_congr_left ?_)
  intro j _
  simp only [Function.comp_apply]
  congr 1
  omega

theorem walkPath_zero_left (p : IpNet) (i : Nat) : walkPath p 0 i = pathTo p i := by
  unfold walkPath pathTo
  exact List.map_congr_left (fun j _ => by rw [Nat.zero_add])

theorem pathTo_length (p : IpNet) (i : Nat) : (pathTo p i).length = i := by
  simp [pathTo]

theorem sufBits_full (p : IpNet) : sufBits p p.len = pathTo p p.len := by
  unfold sufBits pathTo
  exact List.map_congr_left (fun j _ => by rw [Nat.sub_self, Nat.zero_add])

theorem sufBits_succ (p : IpNet) {r : Nat} (h : r < p.len) :
    sufBits p (r + 1) = get_bit p (p.len - (r + 1)) :: sufBits p r := by
  unfold sufBits
  rw [List.range_succ_eq_map, List.map_cons, List.map_map]
  refine congrArg₂ _ (by rw [Nat.add_zero]) (List.map_congr_left ?_)
  intro j _
  simp only [Function.comp_apply]
  congr 1
  omega

theorem termAt_nil (n : Node) : termAt n [] = n.pfx := rfl

theorem termAt_cons (n : Node) (b : Bool) (bs : List Bool) :
    termAt n (b :: bs) =
      match childOf n b with
      | none => none
      | some c => termAt c bs := by
  cases h : childOf n b <;> simp [termAt, subtreeAt, h]

theorem childOf_empty (b : Bool) : childOf Node.empty b = none := by
  cases b <;> rfl

theorem termAt_empty (bs : List Bool) : termAt Node.empty bs = none := by
  cases bs with
  | nil => rfl
  | cons b bs => rw [termAt_cons, childOf_empty]

/-- `find_insert_leaf`'s walk aborts exactly when a terminal marker sits
on a node it visits strictly before the final depth. -/
theorem filAux_eq_none_iff (p : IpNet) :
    ∀ (r pos : Nat) (node : Node),
      filAux p r pos node = none ↔
        ∃ i, i < r ∧ (termAt node (walkPath p pos i)).isSome = true
  | 0, pos, node => by
    simp [filAux]
  | r + 1, pos, node => by
    unfold filAux
    by_cases hpf : (node.pfx).isSome = true
    · simp only [hpf, if_pos]
      constructor
      · intro _
        exact ⟨0, Nat.succ_pos _, by simpa [walkPath, termAt_nil] using hpf⟩
      · intro _
        trivial
    · simp only [hpf, if_neg, Bool.not_eq_true]
      cases hc : childOf node (get_bit p pos) with
      | none =>
        simp only []
        constructor
        · intro h
          cases h
        · rintro ⟨i, hi, hterm⟩
          exfalso
          match i with
          | 0 =>
            rw [walkPath, List.range_zero, List.map_nil, termAt_nil] at hterm
            exact hpf hterm
          | i + 1 =>
            rw [walkPath_succ, termAt_cons, hc] at hterm
            simp at hterm
      | some c =>
        rw [filAux_eq_none_iff p r (pos + 1) c]
        constructor
        · rintro ⟨i, hi, hterm⟩
          refine ⟨i + 1, by omega, ?_⟩
          rw [walkPath_succ, termAt_cons, hc]
          exact hterm
        · rintro ⟨i, hi, hterm⟩
          match i with
          | 0 =>
            rw [walkPath, List.range_zero, List.map_nil, termAt_nil] at hterm
            exact absurd hterm hpf
          | i + 1 =>
            rw [walkPath_succ, termAt_cons, hc] at hterm
            exact ⟨i, by omega, hterm⟩

/-- Top-level form of the walk-abort condition for `find_insert_leaf`. -/
theorem find_insert_leaf_eq_none_iff (root : Node) (p : IpNet) :
    find_insert_leaf root p = none ↔
      ∃ i, i < p.len ∧ (termAt root (pathTo p i)).isSome = true := by
  unfold find_insert_leaf
  rw [filAux_eq_none_iff]
  constructor
  · rintro ⟨i, hi, h⟩
    exact ⟨i, hi, by rwa [walkPath_zero_left] at h⟩
  · rintro ⟨i, hi, h⟩
    exact ⟨i, hi, by rwa [walkPath_zero_left]⟩

theorem insert_go_succ (p : IpNet) (r : Nat) (node : Node) :
    insert_go p (r + 1) node =
      if (node.pfx).isSome then none
      else
        match insert_go p r ((childOf node (get_bit p (p.len - (r + 1)))).getD Node.empty) with
        | none => none
        | some c' =>
          if get_bit p (p.len - (r + 1)) then some (Node.mk node.c0 (some c') node.pfx)
          else some (Node.mk (some c') node.c1 node.pfx) := rfl

theorem insert_go_empty_ne_none (p : IpNet) : ∀ r, insert_go p r Node.empty ≠ none
  | 0 => by simp [insert_go]
  | r + 1 => by
    rw [insert_go_succ]
    have hpfx : (Node.empty.pfx).isSome = false := rfl
    rw [hpfx, if_neg (by simp), childOf_empty, Option.getD_none]
    cases hrec : insert_go p r Node.empty with
    | none => exact absurd hrec (insert_go_empty_ne_none p r)
    | some c' =>
      cases get_bit p (p.len - (r + 1)) <;> simp

/-- `insert_into_node`'s walk aborts exactly when a terminal marker sits
on a node visited strictly before the target depth (same condition as
`find_insert_leaf`, which it calls in the Rust source). -/
theorem insert_go_eq_none_iff (p : IpNet) :
    ∀ (r : Nat) (node : Node), r ≤ p.len →
      (insert_go p r node = none ↔
        ∃ i, i < r ∧ (termAt node (walkPath p (p.len - r) i)).isSome = true)
  | 0, node, _ => by simp [insert_go]
  | r + 1, node, h => by
    rw [insert_go_succ]
    have hstep : p.len - (r + 1) + 1 = p.len - r := by omega
    by_cases hpf : (node.pfx).isSome = true
    · rw [if_pos hpf]
      constructor
      · intro _
        exact ⟨0, Nat.succ_pos _, by simpa [walkPath, termAt_nil] using hpf⟩
      · intro _
        rfl
    · rw [if_neg hpf]
      cases hc : childOf node (get_bit p (p.len - (r + 1))) with
      | none =>
        rw [Option.getD_none]
        cases hrec : insert_go p r Node.empty with
        | none => exact absurd hrec (insert_go_empty_ne_none p r)
        | some c' =>
          simp only [hrec]
          constructor
          · intro hcontra
            cases hb : get_bit p (p.len - (r + 1)) <;> simp [hb] at hcontra
          · rintro ⟨i, hi, hterm⟩
            exfalso
            match i with
            | 0 =>
              rw [walkPath, List.range_zero, List.map_nil, termAt_nil] at hterm
              exact hpf hterm
            | i + 1 =>
              rw [walkPath_succ, termAt_cons, hc] at hterm
              simp at hterm
      | some c =>
        rw [Option.getD_some]
        have ih := insert_go_eq_none_iff p r c (by omega)
        cases hrec : insert_go p r c with
        | none =>
          simp only [hrec]
          constructor
          · intro _
            obtain ⟨i, hi, hterm⟩ := ih.mp hrec
            refine ⟨i + 1, by omega, ?_⟩
            rw [walkPath_succ, hstep, termAt_cons, hc]
            exact hterm
          · intro _
            trivial
        | some c' =>
          simp only [hrec]
          constructor
          · intro hcontra
            cases hb : get_bit p (p.len - (r + 1)) <;> simp [hb] at hcontra
          · rintro ⟨i, hi, hterm⟩
            exfalso
            match i with
            | 0 =>
              rw [walkPath, List.range_zero, List.map_nil, termAt_nil] at hterm
              exact hpf hterm
            | i + 1 =>
              rw [walkPath_succ, hstep, termAt_cons, hc] at hterm
              have : insert_go p r c = none := ih.mpr ⟨i, by omega, hterm⟩
              rw [hrec] at this
              cases this

theorem subtreeAt_cons_some {n c : Node} {b : Bool} (h : childOf n b = some c)
    (bs : List Bool) : subtreeAt n (b :: bs) = subtreeAt c bs := by
  simp [subtreeAt, h]

theorem termAt_cons_some {n c : Node} {b : Bool} (h : childOf n b = some c)
    (bs : List Bool) : termAt n (b :: bs) = termAt c bs := by
  unfold termAt
  rw [subtreeAt_cons_some h]

theorem termAt_cons_none {n : Node} {b : Bool} (h : childOf n b = none)
    (bs : List Bool) : termAt n (b :: bs) = none := by
  rw [termAt_cons, h]

theorem termAt_cons_getD (node : Node) (x : Bool) (xs : List Bool) :
    termAt node (x :: xs) = termAt ((childOf node x).getD Node.empty) xs := by
  cases hcx : childOf node x with
  | none => rw [termAt_cons, hcx, Option.getD_none, termAt_empty]
  | some c => rw [termAt_cons, hcx, Option.getD_some]

theorem childOf_update_same (node c' : Node) (b : Bool) :
    childOf
      (if b = true then Node.mk node.c0 (some c') node.pfx
       else Node.mk (some c') node.c1 node.pfx) b = some c' := by
  cases b <;> simp [childOf, Node.c0, Node.c1]

theorem childOf_update_other (node c' : Node) {b x : Bool} (hx : x ≠ b) :
    childOf
      (if b = true then Node.mk node.c0 (some c') node.pfx
       else Node.mk (some c') node.c1 node.pfx) x = childOf node x := by
  cases b <;> cases x <;> simp_all [childOf, Node.c0, Node.c1]

theorem pfx_update (node c' : Node) (b : Bool) :
    (if b = true then Node.mk node.c0 (some c') node.pfx
     else Node.mk (some c') node.c1 node.pfx).pfx = node.pfx := by
  cases b <;> rfl

/-- Characterization of a successful insertion: the node at the target
path becomes a fresh terminal with both children discarded, every path
strictly below the target path is empty, and every path that does not
extend the target path is untouched. -/
theorem insert_go_some_spec (p : IpNet) :
    ∀ (r : Nat) (node n' : Node), r ≤ p.len → insert_go p r node = some n' →
      subtreeAt n' (sufBits p r) = some (Node.mk none none (some p)) ∧
      (∀ path, ¬ (sufBits p r <+: path) → termAt n' path = termAt node path) ∧
      (∀ path, sufBits p r <+: path → path ≠ sufBits p r → termAt n' path = none)
  | 0, node, n', _, hsome => by
    rw [insert_go] at hsome
    injection hsome with hn'
    subst hn'
    have hnil : sufBits p 0 = [] := by simp [sufBits]
    rw [hnil]
    refine ⟨rfl, ?_, ?_⟩
    · intro path hnp
      exact absurd (List.nil_prefix) hnp
    · intro path _ hne
      cases path with
      | nil => exact absurd rfl hne
      | cons b bs =>
        rw [termAt_cons]
        have : childOf (Node.mk none none (some p)) b = none := by
          cases b <;> rfl
        rw [this]
  | r + 1, node, n', hr, hsome => by
    have hrlt : r < p.len := by omega
    rw [insert_go_succ] at hsome
    by_cases hpf : (node.pfx).isSome = true
    · rw [if_pos hpf] at hsome
      cases hsome
    · rw [if_neg hpf] at hsome
      rw [sufBits_succ p hrlt]
      cases hrec : insert_go p r ((childOf node (get_bit p (p.len - (r + 1)))).getD Node.empty) with
      | none =>
        rw [hrec] at hsome
        cases hsome
      | some c' =>
        rw [hrec] at hsome
        obtain ⟨ih1, ih2, ih3⟩ := insert_go_some_spec p r _ c' (by omega) hrec
        have hn' : n' =
            if get_bit p (p.len - (r + 1)) = true then Node.mk node.c0 (some c') node.pfx
            else Node.mk (some c') node.c1 node.pfx := by
          cases hb : get_bit p (p.len - (r + 1)) <;> rw [hb] at hsome <;>
            simp only [if_pos, if_neg, Bool.false_eq_true, if_false, if_true] at hsome <;>
            exact (Option.some_inj.mp hsome).symm
        have hchild : childOf n' (get_bit p (p.len - (r + 1))) = some c' := by
          rw [hn']
          exact childOf_update_same node c' _
        have hpfx' : n'.pfx = node.pfx := by
          rw [hn']
          exact pfx_update node c' _
        refine ⟨?_, ?_, ?_⟩
        · rw [subtreeAt_cons_some hchild]
          exact ih1
        · intro path hnp
          cases path with
          | nil => rw [termAt_nil, termAt_nil, hpfx']
          | cons x xs =>
            by_cases hxB : x = get_bit p (p.len - (r + 1))
            · subst hxB
              have hnp' : ¬ (sufBits p r <+: xs) := by
                intro hp
                exact hnp (List.cons_prefix_cons.mpr ⟨rfl, hp⟩)
              rw [termAt_cons_some hchild, ih2 xs hnp', termAt_cons_getD]
            · have hother : childOf n' x = childOf node x := by
                rw [hn']
                exact childOf_update_other node c' hxB
              rw [termAt_cons, termAt_cons, hother]
        · intro path hpre hne
          cases path with
          | nil =>
            rcases hpre with ⟨t, ht⟩
            cases ht
          | cons x xs =>
            obtain ⟨hx, hxs⟩ := List.cons_prefix_cons.mp hpre
            subst hx
            have hxs_ne : xs ≠ sufBits p r := by
              intro hcontra
              exact hne (by rw [hcontra])
            rw [termAt_cons_some hchild]
            exact ih3 xs hxs hxs_ne

/-- Top-level abort condition of `insert_into_node`. -/
theorem insert_go_top_none_iff (root : Node) (p : IpNet) :
    insert_go p p.len root = none ↔
      ∃ i, i < p.len ∧ (termAt root (pathTo p i)).isSome = true := by
  rw [insert_go_eq_none_iff p p.len root (le_refl _)]
  constructor
  · rintro ⟨i, hi, h⟩
    rw [Nat.sub_self, walkPath_zero_left] at h
    exact ⟨i, hi, h⟩
  · rintro ⟨i, hi, h⟩
    refine ⟨i, hi, ?_⟩
    rw [Nat.sub_self, walkPath_zero_left]
    exact h

/-- `insert_into_node` aborts exactly when `find_insert_leaf` does (in
the source, the former calls the latter). -/
theorem insert_abort_iff_fil (root : Node) (p : IpNet) :
    insert_go p p.len root = none ↔ find_insert_leaf root p = none := by
  rw [insert_go_top_none_iff, find_insert_leaf_eq_none_iff]

theorem insStep_of_none {root : Node} {p : IpNet} (h : insert_go p p.len root = none) :
    insStep root p = root := by
  unfold insStep insert_into_node
  rw [h]

theorem insStep_of_some {root n' : Node} {p : IpNet} (h : insert_go p p.len root = some n') :
    insStep root p = n' := by
  unfold insStep insert_into_node
  rw [h]

theorem pathTo_take (p : IpNet) {i n : Nat} (h : i ≤ n) :
    (pathTo p n).take i = pathTo p i := by
  unfold pathTo
  rw [← List.map_take, List.take_range, Nat.min_eq_left h]

theorem pathTo_prefix (p : IpNet) {i n : Nat} (h : i ≤ n) :
    pathTo p i <+: pathTo p n := by
  rw [← pathTo_take p h]
  exact List.take_prefix _ _

theorem pathTo_eq_iff {q p : IpNet} {n : Nat} :
    pathTo q n = pathTo p n ↔ ∀ j, j < n → get_bit q j = get_bit p j := by
  unfold pathTo
  rw [List.map_inj_left]
  constructor
  · intro h j hj
    exact h j (List.mem_range.mpr hj)
  · intro h j hj
    exact h j (List.mem_range.mp hj)

theorem node_ok_empty : node_ok Node.empty = true := rfl

theorem node_ok_mk (a bb : Option Node) (pf : Option IpNet) :
    node_ok (Node.mk a bb pf) =
      ((!pf.isSome || (a.isNone && bb.isNone)) &&
       (match a with
        | some n => node_ok n
        | none => true) &&
       (match bb with
        | some n => node_ok n
        | none => true)) := by
  rw [node_ok.eq_def]

theorem node_ok_child {n c : Node} {b : Bool} (h : node_ok n = true)
    (hc : childOf n b = some c) : node_ok c = true := by
  cases n with
  | mk a bb pf =>
    rw [node_ok_mk, Bool.and_eq_true, Bool.and_eq_true] at h
    obtain ⟨⟨_, h2⟩, h3⟩ := h
    cases b with
    | false =>
      have ha : a = some c := by simpa [childOf, Node.c0] using hc
      rw [ha] at h2
      exact h2
    | true =>
      have hb : bb = some c := by simpa [childOf, Node.c1] using hc
      rw [hb] at h3
      exact h3

theorem node_ok_term_no_children {n : Node} (h : node_ok n = true)
    (hpf : (n.pfx).isSome = true) (b : Bool) : childOf n b = none := by
  cases n with
  | mk a bb pf =>
    rw [node_ok_mk, Bool.and_eq_true, Bool.and_eq_true] at h
    obtain ⟨⟨h1, _⟩, _⟩ := h
    have hpf' : pf.isSome = true := hpf
    rw [hpf'] at h1
    simp only [Bool.not_true, Bool.false_or, Bool.and_eq_true, Option.isNone_iff_eq_none] at h1
    cases b <;> simp [childOf, Node.c0, Node.c1, h1.1, h1.2]

theorem node_ok_getD {o : Option Node} (h : ∀ m, o = some m → node_ok m = true) :
    node_ok (o.getD Node.empty) = true := by
  cases o with
  | none => exact node_ok_empty
  | some m => exact h m rfl

/-- Every successful insertion preserves the child-free-terminals
invariant. -/
theorem node_ok_insert_go (p : IpNet) :
    ∀ (r : Nat) (node n' : Node), node_ok node = true → insert_go p r node = some n' →
      node_ok n' = true
  | 0, node, n', _, hsome => by
    rw [insert_go] at hsome
    injection hsome with hn'
    subst hn'
    rfl
  | r + 1, node, n', hok, hsome => by
    rw [insert_go_succ] at hsome
    by_cases hpf : (node.pfx).isSome = true
    · rw [if_pos hpf] at hsome
      cases hsome
    · rw [if_neg hpf] at hsome
      cases hrec : insert_go p r ((childOf node (get_bit p (p.len - (r + 1)))).getD Node.empty) with
      | none =>
        rw [hrec] at hsome
        cases hsome
      | some c' =>
        rw [hrec] at hsome
        have hc0ok : node_ok ((childOf node (get_bit p (p.len - (r + 1)))).getD Node.empty) = true :=
          node_ok_getD (fun m hm => node_ok_child hok hm)
        have hc'ok : node_ok c' = true := node_ok_insert_go p r _ c' hc0ok hrec
        have hpf' : (node.pfx).isSome = false := by
          rw [Bool.eq_false_iff]
          exact hpf
        cases node with
        | mk a bb pf =>
          have hpfn : pf.isSome = false := hpf'
          cases hb : get_bit p (p.len - (r + 1)) with
          | false =>
            rw [hb] at hsome
            simp only [Bool.false_eq_true, if_false] at hsome
            rw [← Option.some_inj.mp hsome]
            simp only [Node.c0, Node.c1, Node.pfx, node_ok_mk, Bool.and_eq_true]
            refine ⟨⟨by simp [hpfn], hc'ok⟩, ?_⟩
            cases hbb : bb with
            | none => rfl
            | some m =>
              exact @node_ok_child (Node.mk a bb pf) m true hok
                (by simp [childOf, Node.c1, hbb])
          | true =>
            rw [hb] at hsome
            simp only [if_true] at hsome
            rw [← Option.some_inj.mp hsome]
            simp only [Node.c0, Node.c1, Node.pfx, node_ok_mk, Bool.and_eq_true]
            refine ⟨⟨by simp [hpfn], ?_⟩, hc'ok⟩
            cases haa : a with
            | none => rfl
            | some m =>
              exact @node_ok_child (Node.mk a bb pf) m false hok
                (by simp [childOf, Node.c0, haa])

theorem node_ok_insStep {root : Node} (p : IpNet) (h : node_ok root = true) :
    node_ok (insStep root p) = true := by
  cases hgo : insert_go p p.len root with
  | none =>
    rw [insStep_of_none hgo]
    exact h
  | some n' =>
    rw [insStep_of_some hgo]
    exact node_ok_insert_go p p.len root n' h hgo

theorem node_ok_foldl (ps : List IpNet) :
    ∀ root, node_ok root = true → node_ok (ps.foldl insStep root) = true := by
  induction ps with
  | nil =>
    intro root h
    exact h
  | cons p ps ih =>
    intro root h
    rw [List.foldl_cons]
    exact ih _ (node_ok_insStep p h)

/-- In a well-formed trie, no terminal sits strictly below another
terminal. -/
theorem node_ok_no_term_below :
    ∀ (path : List Bool) (n : Node), node_ok n = true →
      ∀ q, termAt n path = some q → ∀ e es, termAt n (path ++ e :: es) = none
  | [], n, hok, q, hterm, e, es => by
    have hc : childOf n e = none :=
      node_ok_term_no_children hok (by rw [termAt_nil] at hterm; rw [hterm]; rfl) e
    rw [List.nil_append]
    exact termAt_cons_none hc es
  | b :: bs, n, hok, q, hterm, e, es => by
    cases hc : childOf n b with
    | none =>
      rw [termAt_cons_none hc] at hterm
      cases hterm
    | some c =>
      rw [termAt_cons_some hc] at hterm
      rw [List.cons_append, termAt_cons_some hc]
      exact node_ok_no_term_below bs c (node_ok_child hok hc) q hterm e es

theorem collect_mk_some (a bb : Option Node) (q : IpNet) :
    collect_prefixes (Node.mk a bb (some q)) = [q] := rfl

theorem collect_mk_none (a bb : Option Node) :
    collect_prefixes (Node.mk a bb none) =
      (match a with
       | some n => collect_prefixes n
       | none => []) ++
      (match bb with
       | some n => collect_prefixes n
       | none => []) := by
  rw [collect_prefixes.eq_def]

/-- In a well-formed trie, `collect_prefixes` emits exactly the prefixes
stored at terminal nodes. -/
theorem mem_collect_iff (x : IpNet) :
    ∀ (n : Node), node_ok n = true →
      ((x ∈ collect_prefixes n) ↔ ∃ path, termAt n path = some x)
  | .mk a bb (some q), hok => by
    rw [collect_mk_some]
    constructor
    · intro hx
      have hxq : x = q := by simpa using hx
      subst hxq
      exact ⟨[], rfl⟩
    · rintro ⟨path, hp⟩
      cases path with
      | nil =>
        rw [termAt_nil] at hp
        simp only [Node.pfx, Option.some_inj] at hp
        simp [hp]
      | cons b bs =>
        have hc : childOf (Node.mk a bb (some q)) b = none :=
          node_ok_term_no_children hok rfl b
        rw [termAt_cons_none hc] at hp
        cases hp
  | .mk a bb none, hok => by
    rw [collect_mk_none]
    constructor
    · intro hx
      rcases List.mem_append.mp hx with h | h
      · cases haa : a with
        | none =>
          rw [haa] at h
          exact absurd h (List.not_mem_nil x)
        | some m =>
          rw [haa] at h hok
          have hcm : childOf (Node.mk (some m) bb none) false = some m := by
            simp [childOf, Node.c0]
          obtain ⟨path, hp⟩ :=
            (mem_collect_iff x m (node_ok_child hok hcm)).mp h
          exact ⟨false :: path, by rw [termAt_cons_some hcm]; exact hp⟩
      · cases hbb : bb with
        | none =>
          rw [hbb] at h
          exact absurd h (List.not_mem_nil x)
        | some m =>
          rw [hbb] at h hok
          have hcm : childOf (Node.mk a (some m) none) true = some m := by
            simp [childOf, Node.c1]
          obtain ⟨path, hp⟩ :=
            (mem_collect_iff x m (node_ok_child hok hcm)).mp h
          exact ⟨true :: path, by rw [termAt_cons_some hcm]; exact hp⟩
    · rintro ⟨path, hp⟩
      cases path with
      | nil =>
        rw [termAt_nil] at hp
        simp [Node.pfx] at hp
      | cons b bs =>
        cases b with
        | false =>
          cases haa : a with
          | none =>
            rw [termAt_cons_none (by simp [childOf, Node.c0, haa])] at hp
            cases hp
          | some m =>
            rw [haa] at hok
            have hcm : childOf (Node.mk (some m) bb none) false = some m := by
              simp [childOf, Node.c0]
            rw [haa, termAt_cons_some hcm] at hp
            refine List.mem_append.mpr (Or.inl ?_)
            exact (mem_collect_iff x m (node_ok_child hok hcm)).mpr ⟨bs, hp⟩
        | true =>
          cases hbb : bb with
          | none =>
            rw [termAt_cons_none (by simp [childOf, Node.c1, hbb])] at hp
            cases hp
          | some m =>
            rw [hbb] at hok
            have hcm : childOf (Node.mk a (some m) none) true = some m := by
              simp [childOf, Node.c1]
            rw [hbb, termAt_cons_some hcm] at hp
            refine List.mem_append.mpr (Or.inr ?_)
            exact (mem_collect_iff x m (node_ok_child hok hcm)).mpr ⟨bs, hp⟩

theorem count_buckets (l : List IpNet) (x : IpNet) :
    ∀ keys : List Nat, keys.Nodup →
      ((keys.flatMap (fun k => l.filter (fun p => p.len = k))).count x =
        if x.len ∈ keys then l.count x else 0) := by
  intro keys
  induction keys with
  | nil =>
    intro _
    simp
  | cons k ks ih =>
    intro hnd
    rw [List.flatMap_cons, List.count_append, ih hnd.of_cons]
    by_cases hxk : x.len = k
    · have hx_notin : x.len ∉ ks := by
        rw [hxk]
        exact hnd.not_mem
      rw [if_neg hx_notin, if_pos (by rw [hxk]; exact List.mem_cons_self k ks)]
      rw [List.count_filter (by simp [hxk])]
      omega
    · have hcount0 : (l.filter (fun p => decide (p.len = k))).count x = 0 := by
        rw [List.count_eq_zero]
        intro hmem
        have := List.of_mem_filter hmem
        simp at this
        exact hxk this
      rw [hcount0]
      by_cases hxks : x.len ∈ ks
      · rw [if_pos hxks, if_pos (List.mem_cons_of_mem k hxks)]
        omega
      · rw [if_neg hxks, if_neg (by simp [hxk, hxks])]

/-- `sort_prefixes` permutes its input. -/
theorem sort_prefixes_perm (l : List IpNet) : (sort_prefixes l).Perm l := by
  rw [List.perm_iff_count]
  intro x
  unfold sort_prefixes
  have hnd : (((l.map IpNet.len).dedup).insertionSort (· ≤ ·)).Nodup :=
    ((List.perm_insertionSort _ _).nodup_iff).mpr (List.nodup_dedup _)
  rw [count_buckets l x _ hnd]
  by_cases hx : x ∈ l
  · rw [if_pos]
    exact ((List.perm_insertionSort _ _).mem_iff).mpr
      ((List.mem_dedup).mpr (List.mem_map_of_mem IpNet.len hx))
  · rw [List.count_eq_zero.mpr hx]
    by_cases hmem : x.len ∈ ((l.map IpNet.len).dedup).insertionSort (· ≤ ·)
    · rw [if_pos hmem]
    · rw [if_neg hmem]

theorem mem_sort_iff (l : List IpNet) (x : IpNet) : x ∈ sort_prefixes l ↔ x ∈ l :=
  (sort_prefixes_perm l).mem_iff

/-- `sort_prefixes` orders prefixes by nondecreasing length. -/
theorem sort_prefixes_pairwise (l : List IpNet) :
    List.Pairwise (fun a b => a.len ≤ b.len) (sort_prefixes l) := by
  unfold sort_prefixes
  rw [List.pairwise_flatMap]
  constructor
  · intro k _
    apply List.pairwise_of_forall_mem_list
    intro a ha b hb
    have ha' := List.of_mem_filter ha
    have hb' := List.of_mem_filter hb
    simp at ha' hb'
    rw [ha', hb']
  · have hsorted : List.Sorted (· ≤ ·) (((l.map IpNet.len).dedup).insertionSort (· ≤ ·)) :=
      List.sorted_insertionSort _ _
    refine List.Pairwise.imp ?_ hsorted
    intro k1 k2 hk x hx y hy
    have hx' := List.of_mem_filter hx
    have hy' := List.of_mem_filter hy
    simp at hx' hy'
    rw [hx', hy']
    exact hk

/-- `covers`, phrased via walk paths. -/
theorem covers_iff_pathTo {q p : IpNet} (hq : ValidPfx q) (hp : ValidPfx p) :
    covers q p ↔
      q.family = p.family ∧ q.len < p.len ∧ pathTo q q.len = pathTo p q.len := by
  rw [covers_iff_bits hq hp, pathTo_eq_iff]

theorem covers_trans {r q p : IpNet} (hr : ValidPfx r) (hq : ValidPfx q) (hp : ValidPfx p)
    (h1 : covers r q) (h2 : covers q p) : covers r p := by
  rw [covers_iff_bits hr hq] at h1
  rw [covers_iff_bits hq hp] at h2
  rw [covers_iff_bits hr hp]
  obtain ⟨hf1, hl1, hb1⟩ := h1
  obtain ⟨hf2, hl2, hb2⟩ := h2
  exact ⟨hf1.trans hf2, hl1.trans hl2, fun j hj => (hb1 j hj).trans (hb2 j (hj.trans hl1))⟩

/-- A prefix covered by some member of a valid set is covered by a
member that is itself minimal in the set. -/
theorem exists_minimal_coverer {S : List IpNet} (hv : ∀ q ∈ S, ValidPfx q) {p : IpNet}
    (hp : ValidPfx p) (h : ∃ q ∈ S, covers q p) : ∃ q ∈ S, covers q p ∧ Minim S q := by
  obtain ⟨q, hqS, hqp⟩ := h
  have key : ∀ n, ∀ q ∈ S, covers q p → q.len ≤ n → ∃ q' ∈ S, covers q' p ∧ Minim S q' := by
    intro n
    induction n with
    | zero =>
      intro q hqS hqp hlen
      refine ⟨q, hqS, hqp, ?_⟩
      intro r hrS hcontra
      have : r.len < q.len := hcontra.1
      omega
    | succ n ih =>
      intro q hqS hqp hlen
      by_cases hmin : Minim S q
      · exact ⟨q, hqS, hqp, hmin⟩
      · unfold Minim at hmin
        push_neg at hmin
        obtain ⟨r, hrS, hrq⟩ := hmin
        have hrp : covers r p := covers_trans (hv r hrS) (hv q hqS) hp hrq hqp
        exact ih r hrS hrp (by have := hrq.1; omega)
  exact key q.len q hqS hqp (le_refl _)

/-- Equal walk paths and equal lengths identify prefixes in a
`NoDupNet` set. -/
theorem eq_of_same_path {S : List IpNet} (hnd : NoDupNet S) {q p : IpNet}
    (hqS : q ∈ S) (hpS : p ∈ S) (hq : ValidPfx q) (hp : ValidPfx p)
    (hf : q.family = p.family) (hlen : q.len = p.len)
    (hbits : pathTo q q.len = pathTo p q.len) : q = p := by
  apply hnd q hqS p hpS hf hlen
  have hub : upperBits q q.len = upperBits p q.len :=
    (upperBits_eq_iff_bits hq hp hf (by rw [hlen]; exact hp.2)).mpr
      (pathTo_eq_iff.mp hbits)
  unfold network
  unfold upperBits at hub
  rw [hf, hlen] at hub ⊢
  rw [hub]

theorem trieExact_empty : TrieExact [] Node.empty := by
  intro path q
  rw [termAt_empty]
  simp

/-- With the exact invariant, the insertion walk aborts exactly on
prefixes covered by an already-inserted one. -/
theorem abort_iff_covered {S : List IpNet} {root : Node} {p : IpNet} {f : Family}
    (hS : ∀ q ∈ S, ValidPfx q ∧ q.family = f)
    (hp : ValidPfx p) (hpf : p.family = f)
    (hex : TrieExact S root) :
    (insert_go p p.len root = none ↔ ∃ q ∈ S, covers q p) := by
  rw [insert_go_top_none_iff]
  constructor
  · rintro ⟨i, hi, hterm⟩
    obtain ⟨q, hq⟩ := Option.isSome_iff_exists.mp hterm
    obtain ⟨hqS, _, hpath⟩ := (hex _ q).mp hq
    have hlen : i = q.len := by
      have := congrArg List.length hpath
      rwa [pathTo_length, pathTo_length] at this
    refine ⟨q, hqS, ?_⟩
    rw [covers_iff_pathTo (hS q hqS).1 hp]
    refine ⟨(hS q hqS).2.trans hpf.symm, by omega, ?_⟩
    rw [← hpath, hlen]
  · rintro ⟨q, hqS, hqp⟩
    obtain ⟨q', hq'S, hq'p, hq'min⟩ :=
      exists_minimal_coverer (fun r hr => (hS r hr).1) hp ⟨q, hqS, hqp⟩
    have hterm : termAt root (pathTo q' q'.len) = some q' :=
      (hex _ q').mpr ⟨hq'S, hq'min, rfl⟩
    obtain ⟨_, hlen, hbits⟩ := (covers_iff_pathTo (hS q' hq'S).1 hp).mp hq'p
    refine ⟨q'.len, hlen, ?_⟩
    rw [← hbits, hterm]
    rfl

/-- One insertion step preserves the exact trie invariant, given
ascending-length order and network-identified inputs. -/
theorem trieExact_step {S : List IpNet} {root : Node} {p : IpNet} {f : Family}
    (hS : ∀ q ∈ S, ValidPfx q ∧ q.family = f ∧ q.len ≤ p.len)
    (hp : ValidPfx p) (hpf : p.family = f)
    (hnd : NoDupNet (S ++ [p]))
    (hex : TrieExact S root) :
    TrieExact (S ++ [p]) (insStep root p) := by
  have hSv : ∀ q ∈ S, ValidPfx q ∧ q.family = f := fun q hq => ⟨(hS q hq).1, (hS q hq).2.1⟩
  have habort := abort_iff_covered hSv hp hpf hex
  cases hgo : insert_go p p.len root with
  | none =>
    rw [insStep_of_none hgo]
    have hcov : ∃ q ∈ S, covers q p := habort.mp hgo
    intro path q
    rw [hex path q]
    constructor
    · rintro ⟨hqS, hmin, hpath⟩
      refine ⟨List.mem_append_left _ hqS, ?_, hpath⟩
      intro r hr
      rcases List.mem_append.mp hr with hrS | hrp
      · exact hmin r hrS
      · rw [List.mem_singleton] at hrp
        subst hrp
        intro hcontra
        have h1 := hcontra.1
        have h2 := (hS q hqS).2.2
        omega
    · rintro ⟨hqSp, hmin, hpath⟩
      rcases List.mem_append.mp hqSp with hqS | hqp
      · refine ⟨hqS, ?_, hpath⟩
        intro r hrS
        exact hmin r (List.mem_append_left _ hrS)
      · rw [List.mem_singleton] at hqp
        subst hqp
        exfalso
        obtain ⟨r, hrS, hrp⟩ := hcov
        exact hmin r (List.mem_append_left _ hrS) hrp
  | some n' =>
    rw [insStep_of_some hgo]
    obtain ⟨h1, h2, h3⟩ := insert_go_some_spec p p.len root n' (le_refl _) hgo
    rw [sufBits_full] at h1 h2 h3
    have hnocov : ¬ ∃ q ∈ S, covers q p := by
      intro hcov
      have := habort.mpr hcov
      rw [hgo] at this
      cases this
    have hterm_p : termAt n' (pathTo p p.len) = some p := by
      unfold termAt
      rw [h1]
      rfl
    intro path q
    by_cases hpath_eq : path = pathTo p p.len
    · subst hpath_eq
      rw [hterm_p]
      constructor
      · intro hq
        have hpq : p = q := Option.some_inj.mp hq
        subst hpq
        refine ⟨List.mem_append_right _ (List.mem_singleton_self p), ?_, rfl⟩
        intro r hr
        rcases List.mem_append.mp hr with hrS | hrp
        · intro hcontra
          exact hnocov ⟨r, hrS, hcontra⟩
        · rw [List.mem_singleton] at hrp
          subst hrp
          intro hcontra
          exact absurd hcontra.1 (lt_irrefl _)
      · rintro ⟨hqSp, _, hpath⟩
        have hlen_eq : p.len = q.len := by
          have := congrArg List.length hpath
          rwa [pathTo_length, pathTo_length] at this
        have hbits : pathTo q q.len = pathTo p q.len := by
          rw [← hpath, hlen_eq]
        have hq_eq : q = p := by
          rcases List.mem_append.mp hqSp with hqS | hqp
          · refine eq_of_same_path hnd (List.mem_append_left _ hqS)
              (List.mem_append_right _ (List.mem_singleton_self p)) (hS q hqS).1 hp
              ?_ hlen_eq.symm hbits
            rw [(hS q hqS).2.1, hpf]
          · rw [List.mem_singleton] at hqp
            exact hqp
        rw [hq_eq]
    · by_cases hpre : pathTo p p.len <+: path
      · rw [h3 path hpre hpath_eq]
        constructor
        · intro hcontra
          cases hcontra
        · rintro ⟨hqSp, _, hpath⟩
          exfalso
          have hlen_path : (pathTo p p.len).length ≤ path.length := hpre.length_le
          rw [pathTo_length] at hlen_path
          have hpath_len : path.length = q.len := by
            rw [hpath, pathTo_length]
          have hqlen : q.len ≤ p.len := by
            rcases List.mem_append.mp hqSp with hqS | hqp
            · exact (hS q hqS).2.2
            · rw [List.mem_singleton] at hqp
              subst hqp
              exact le_refl _
          apply hpath_eq
          exact (hpre.eq_of_length (by rw [pathTo_length]; omega)).symm
      · rw [h2 path hpre, hex path q]
        constructor
        · rintro ⟨hqS, hmin, hpath⟩
          refine ⟨List.mem_append_left _ hqS, ?_, hpath⟩
          intro r hr
          rcases List.mem_append.mp hr with hrS | hrp
          · exact hmin r hrS
          · rw [List.mem_singleton] at hrp
            subst hrp
            intro hcontra
            have h4 := hcontra.1
            have h5 := (hS q hqS).2.2
            omega
        · rintro ⟨hqSp, hmin, hpath⟩
          rcases List.mem_append.mp hqSp with hqS | hqp
          · exact ⟨hqS, fun r hr => hmin r (List.mem_append_left _ hr), hpath⟩
          · rw [List.mem_singleton] at hqp
            subst hqp
            exact absurd hpath hpath_eq

/-- Folding insertions of a valid, single-family, ascending-length,
network-identified list preserves the exact trie invariant. -/
theorem trieExact_fold {f : Family} :
    ∀ (L Sdone : List IpNet) (root : Node),
      (∀ q ∈ Sdone ++ L, ValidPfx q ∧ q.family = f) →
      List.Pairwise (fun a b => a.len ≤ b.len) (Sdone ++ L) →
      NoDupNet (Sdone ++ L) →
      TrieExact Sdone root →
      TrieExact (Sdone ++ L) (L.foldl insStep root)
  | [], Sdone, root, _, _, _, hex => by
    rw [List.append_nil]
    exact hex
  | p :: L', Sdone, root, hv, hpw, hnd, hex => by
    have hassoc : Sdone ++ p :: L' = (Sdone ++ [p]) ++ L' := by simp
    have hvp := hv p (List.mem_append_right _ (List.mem_cons_self _ _))
    have hS : ∀ q ∈ Sdone, ValidPfx q ∧ q.family = f ∧ q.len ≤ p.len := by
      intro q hq
      have hv' := hv q (List.mem_append_left _ hq)
      refine ⟨hv'.1, hv'.2, ?_⟩
      exact (List.pairwise_append.mp hpw).2.2 q hq p (List.mem_cons_self _ _)
    have hup : ∀ a, a ∈ Sdone ++ [p] → a ∈ Sdone ++ p :: L' := by
      intro a ha
      rcases List.mem_append.mp ha with h | h
      · exact List.mem_append_left _ h
      · rw [List.mem_singleton] at h
        subst h
        exact List.mem_append_right _ (List.mem_cons_self _ _)
    have hnd1 : NoDupNet (Sdone ++ [p]) := by
      intro a ha b hb h1 h2 h3
      exact hnd a (hup a ha) b (hup b hb) h1 h2 h3
    have hstep := trieExact_step hS hvp.1 hvp.2 hnd1 hex
    rw [List.foldl_cons, hassoc]
    exact trieExact_fold L' (Sdone ++ [p]) (insStep root p)
      (hassoc ▸ hv) (hassoc ▸ hpw) (hassoc ▸ hnd) hstep

theorem trieSub_empty : TrieSub [] Node.empty := by
  intro path q h
  rw [termAt_empty] at h
  cases h

theorem trieCont_empty : TrieCont [] Node.empty := by
  intro x hx
  cases hx

/-- One insertion step preserves the weak and container invariants,
given only ascending-length order (no network identification needed). -/
theorem trieSubCont_step {S : List IpNet} {root : Node} {p : IpNet} {f : Family}
    (hS : ∀ q ∈ S, ValidPfx q ∧ q.family = f ∧ q.len ≤ p.len)
    (hp : ValidPfx p) (hpf : p.family = f)
    (hsub : TrieSub S root) (hcont : TrieCont S root) :
    TrieSub (S ++ [p]) (insStep root p) ∧ TrieCont (S ++ [p]) (insStep root p) := by
  cases hgo : insert_go p p.len root with
  | none =>
    rw [insStep_of_none hgo]
    constructor
    · intro path q hterm
      obtain ⟨hqS, hpath⟩ := hsub path q hterm
      exact ⟨List.mem_append_left _ hqS, hpath⟩
    · intro x hx
      rcases List.mem_append.mp hx with hxS | hxp
      · exact hcont x hxS
      · rw [List.mem_singleton] at hxp
        subst hxp
        obtain ⟨i, hi, hterm⟩ := (insert_go_top_none_iff root x).mp hgo
        obtain ⟨q, hq⟩ := Option.isSome_iff_exists.mp hterm
        obtain ⟨hqS, hpath⟩ := hsub _ q hq
        have hilen : i = q.len := by
          have := congrArg List.length hpath
          rwa [pathTo_length, pathTo_length] at this
        refine ⟨q, ⟨pathTo x i, hq⟩, (hS q hqS).2.1.trans hpf.symm, by omega, ?_⟩
        rw [← hpath, hilen]
  | some n' =>
    rw [insStep_of_some hgo]
    obtain ⟨h1, h2, h3⟩ := insert_go_some_spec p p.len root n' (le_refl _) hgo
    rw [sufBits_full] at h1 h2 h3
    have hterm_p : termAt n' (pathTo p p.len) = some p := by
      unfold termAt
      rw [h1]
      rfl
    constructor
    · intro path q hterm
      by_cases hpre : pathTo p p.len <+: path
      · by_cases hpath_eq : path = pathTo p p.len
        · rw [hpath_eq, hterm_p] at hterm
          have : p = q := Option.some_inj.mp hterm
          subst this
          exact ⟨List.mem_append_right _ (List.mem_singleton_self p), hpath_eq⟩
        · rw [h3 path hpre hpath_eq] at hterm
          cases hterm
      · rw [h2 path hpre] at hterm
        obtain ⟨hqS, hpath⟩ := hsub path q hterm
        exact ⟨List.mem_append_left _ hqS, hpath⟩
    · intro x hx
      rcases List.mem_append.mp hx with hxS | hxp
      · obtain ⟨q, ⟨π, hqterm⟩, hqx⟩ := hcont x hxS
        by_cases hpre : pathTo p p.len <+: π
        · by_cases hpi : π = pathTo p p.len
          · obtain ⟨hqS, hqpath⟩ := hsub π q hqterm
            have hqlen : q.len = p.len := by
              have := congrArg List.length (hqpath.symm.trans hpi)
              rwa [pathTo_length, pathTo_length] at this
            have hbits_qp : pathTo p p.len = pathTo q q.len := hpi.symm.trans hqpath
            refine ⟨p, ⟨pathTo p p.len, hterm_p⟩, ?_, ?_, ?_⟩
            · exact hpf.trans ((hS q hqS).2.1.symm.trans hqx.1)
            · rw [← hqlen]
              exact hqx.2.1
            · rw [hbits_qp, hqx.2.2, ← hqlen]
          · exfalso
            obtain ⟨hqS, hqpath⟩ := hsub π q hqterm
            have hlen1 : (pathTo p p.len).length ≤ π.length := hpre.length_le
            have hlen2 : π.length = q.len := by
              rw [hqpath, pathTo_length]
            rw [pathTo_length] at hlen1
            have hqle := (hS q hqS).2.2
            apply hpi
            exact (hpre.eq_of_length (by rw [pathTo_length]; omega)).symm
        · exact ⟨q, ⟨π, by rw [h2 π hpre]; exact hqterm⟩, hqx⟩
      · rw [List.mem_singleton] at hxp
        subst hxp
        exact ⟨x, ⟨pathTo x x.len, hterm_p⟩, rfl, le_refl _, rfl⟩

/-- Folding insertions of a valid, single-family, ascending-length list
preserves the weak and container invariants. -/
theorem trieSubCont_fold {f : Family} :
    ∀ (L Sdone : List IpNet) (root : Node),
      (∀ q ∈ Sdone ++ L, ValidPfx q ∧ q.family = f) →
      List.Pairwise (fun a b => a.len ≤ b.len) (Sdone ++ L) →
      TrieSub Sdone root → TrieCont Sdone root →
      TrieSub (Sdone ++ L) (L.foldl insStep root) ∧
        TrieCont (Sdone ++ L) (L.foldl insStep root)
  | [], Sdone, root, _, _, hsub, hcont => by
    rw [List.append_nil]
    exact ⟨hsub, hcont⟩
  | p :: L', Sdone, root, hv, hpw, hsub, hcont => by
    have hassoc : Sdone ++ p :: L' = (Sdone ++ [p]) ++ L' := by simp
    have hvp := hv p (List.mem_append_right _ (List.mem_cons_self _ _))
    have hS : ∀ q ∈ Sdone, ValidPfx q ∧ q.family = f ∧ q.len ≤ p.len := by
      intro q hq
      have hv' := hv q (List.mem_append_left _ hq)
      refine ⟨hv'.1, hv'.2, ?_⟩
      exact (List.pairwise_append.mp hpw).2.2 q hq p (List.mem_cons_self _ _)
    have hstep := trieSubCont_step hS hvp.1 hvp.2 hsub hcont
    rw [List.foldl_cons, hassoc]
    exact trieSubCont_fold L' (Sdone ++ [p]) (insStep root p)
      (hassoc ▸ hv) (hassoc ▸ hpw) hstep.1 hstep.2

theorem netsOf_eq_filter (l : List IpNet) :
    netsOf l = (sort_prefixes l).filter (fun p => decide (p.len < p.family.width)) := by
  unfold netsOf
  rw [List.partition_eq_filter_filter]

theorem hostsIn_eq_filter (l : List IpNet) :
    hostsIn l = (sort_prefixes l).filter (fun p => !decide (p.len < p.family.width)) := by
  unfold hostsIn
  rw [List.partition_eq_filter_filter]
  rfl

theorem mem_netsOf {l : List IpNet} {x : IpNet} :
    x ∈ netsOf l ↔ x ∈ l ∧ x.len < x.family.width := by
  rw [netsOf_eq_filter, List.mem_filter, mem_sort_iff]
  simp

theorem mem_hostsIn {l : List IpNet} {x : IpNet} :
    x ∈ hostsIn l ↔ x ∈ l ∧ ¬ x.len < x.family.width := by
  rw [hostsIn_eq_filter, List.mem_filter, mem_sort_iff]
  simp

theorem netsOf_pairwise (l : List IpNet) :
    List.Pairwise (fun a b => a.len ≤ b.len) (netsOf l) := by
  rw [netsOf_eq_filter]
  exact (sort_prefixes_pairwise l).sublist (List.filter_sublist _)

theorem build_for_family_root (l : List IpNet) :
    (build_for_family l).root = (netsOf l).foldl insStep Node.empty := rfl

theorem build_for_family_hosts (l : List IpNet) :
    (build_for_family l).hosts =
      (hostsIn l).filter
        (fun h => (find_insert_leaf ((netsOf l).foldl insStep Node.empty) h).isSome) := rfl

theorem covers_family {q p : IpNet} (h : covers q p) : q.family = p.family := h.2.1

/-- With the exact invariant, a terminal marker sits on the walk path of
`x` strictly before its full length exactly when some inserted prefix
covers `x`. -/
theorem covered_iff_termOnPath {S : List IpNet} {root : Node} {x : IpNet} {f : Family}
    (hS : ∀ q ∈ S, ValidPfx q ∧ q.family = f)
    (hx : ValidPfx x) (hxf : x.family = f)
    (hex : TrieExact S root) :
    (∃ i, i < x.len ∧ (termAt root (pathTo x i)).isSome = true) ↔ ∃ q ∈ S, covers q x := by
  constructor
  · rintro ⟨i, hi, hterm⟩
    obtain ⟨q, hq⟩ := Option.isSome_iff_exists.mp hterm
    obtain ⟨hqS, _, hpath⟩ := (hex _ q).mp hq
    have hlen : i = q.len := by
      have := congrArg List.length hpath
      rwa [pathTo_length, pathTo_length] at this
    refine ⟨q, hqS, ?_⟩
    rw [covers_iff_pathTo (hS q hqS).1 hx]
    refine ⟨(hS q hqS).2.trans hxf.symm, by omega, ?_⟩
    rw [← hpath, hlen]
  · rintro ⟨q, hqS, hqx⟩
    obtain ⟨q', hq'S, hq'x, hq'min⟩ :=
      exists_minimal_coverer (fun r hr => (hS r hr).1) hx ⟨q, hqS, hqx⟩
    have hterm : termAt root (pathTo q' q'.len) = some q' :=
      (hex _ q').mpr ⟨hq'S, hq'min, rfl⟩
    obtain ⟨_, hlen, hbits⟩ := (covers_iff_pathTo (hS q' hq'S).1 hx).mp hq'x
    refine ⟨q'.len, hlen, ?_⟩
    rw [← hbits, hterm]
    rfl

theorem minim_netsOf_iff {f : Family} {l : List IpNet} {x : IpNet}
    (_hv : ∀ q ∈ l, ValidPfx q ∧ q.family = f)
    (hx : ValidPfx x) (_hxf : x.family = f) :
    Minim (netsOf l) x ↔ Minim l x := by
  constructor
  · intro h r hr hcov
    have hrf : r.family = x.family := covers_family hcov
    have hrnets : r ∈ netsOf l := by
      rw [mem_netsOf]
      refine ⟨hr, ?_⟩
      have h1 : r.len < x.len := hcov.1
      have h2 : x.len ≤ x.family.width := hx.2
      rw [hrf]
      omega
    exact h r hrnets hcov
  · intro h r hr hcov
    exact h r (mem_netsOf.mp hr).1 hcov

/-- Per-family correctness under network identification: the collected
trie entries together with the surviving hosts are exactly the minimal
members of the family's input. -/
theorem build_mem_iff {f : Family} (l : List IpNet)
    (hv : ∀ q ∈ l, ValidPfx q ∧ q.family = f) (hnd : NoDupNet l) (x : IpNet) :
    (x ∈ collect_prefixes (build_for_family l).root ∨ x ∈ (build_for_family l).hosts) ↔
      (x ∈ l ∧ Minim l x) := by
  have hv_nets : ∀ q ∈ netsOf l, ValidPfx q ∧ q.family = f :=
    fun q hq => hv q (mem_netsOf.mp hq).1
  have hnd_nets : NoDupNet (netsOf l) := by
    intro a ha b hb h1 h2 h3
    exact hnd a (mem_netsOf.mp ha).1 b (mem_netsOf.mp hb).1 h1 h2 h3
  have hexact : TrieExact (netsOf l) ((netsOf l).foldl insStep Node.empty) := by
    have := trieExact_fold (netsOf l) [] Node.empty
      (by rw [List.nil_append]; exact hv_nets)
      (by rw [List.nil_append]; exact netsOf_pairwise l)
      (by rw [List.nil_append]; exact hnd_nets)
      trieExact_empty
    rwa [List.nil_append] at this
  have hok : node_ok ((netsOf l).foldl insStep Node.empty) = true :=
    node_ok_foldl (netsOf l) Node.empty node_ok_empty
  rw [build_for_family_root, build_for_family_hosts]
  constructor
  · rintro (hcol | hhost)
    · obtain ⟨path, hterm⟩ := (mem_collect_iff x _ hok).mp hcol
      obtain ⟨hxnets, hxmin, _⟩ := (hexact path x).mp hterm
      have hx := hv x (mem_netsOf.mp hxnets).1
      exact ⟨(mem_netsOf.mp hxnets).1,
        (minim_netsOf_iff hv hx.1 hx.2).mp hxmin⟩
    · rw [List.mem_filter] at hhost
      obtain ⟨hxh, hkept⟩ := hhost
      have hxl := (mem_hostsIn.mp hxh).1
      have hx := hv x hxl
      refine ⟨hxl, ?_⟩
      intro r hr hcov
      have hnotnone : ¬ find_insert_leaf ((netsOf l).foldl insStep Node.empty) x = none := by
        intro hcontra
        rw [hcontra] at hkept
        cases hkept
      rw [find_insert_leaf_eq_none_iff] at hnotnone
      apply hnotnone
      rw [covered_iff_termOnPath hv_nets hx.1 hx.2 hexact]
      have hrf : r.family = x.family := covers_family hcov
      refine ⟨r, ?_, hcov⟩
      rw [mem_netsOf]
      refine ⟨hr, ?_⟩
      have h1 : r.len < x.len := hcov.1
      have h2 : x.len ≤ x.family.width := hx.1.2
      rw [hrf]
      omega
  · rintro ⟨hxl, hxmin⟩
    have hx := hv x hxl
    by_cases hxw : x.len < x.family.width
    · left
      have hxnets : x ∈ netsOf l := mem_netsOf.mpr ⟨hxl, hxw⟩
      refine (mem_collect_iff x _ hok).mpr ⟨pathTo x x.len, ?_⟩
      exact (hexact _ x).mpr ⟨hxnets, (minim_netsOf_iff hv hx.1 hx.2).mpr hxmin, rfl⟩
    · right
      rw [List.mem_filter]
      refine ⟨mem_hostsIn.mpr ⟨hxl, hxw⟩, ?_⟩
      rw [Option.isSome_iff_ne_none]
      intro hcontra
      rw [find_insert_leaf_eq_none_iff] at hcontra
      rw [covered_iff_termOnPath hv_nets hx.1 hx.2 hexact] at hcontra
      obtain ⟨q, hqnets, hqx⟩ := hcontra
      exact hxmin q (mem_netsOf.mp hqnets).1 hqx

theorem mem_fam4 {l : List IpNet} {x : IpNet} : x ∈ fam4 l ↔ x ∈ l ∧ x.family = Family.v4 := by
  unfold fam4
  rw [List.partition_eq_filter_filter, List.mem_filter]
  simp

theorem mem_fam6 {l : List IpNet} {x : IpNet} : x ∈ fam6 l ↔ x ∈ l ∧ x.family = Family.v6 := by
  unfold fam6
  rw [List.partition_eq_filter_filter]
  show x ∈ List.filter _ l ↔ _
  rw [List.mem_filter]
  constructor
  · rintro ⟨hx, hf⟩
    refine ⟨hx, ?_⟩
    simp only [Function.comp_apply, Bool.not_eq_true', decide_eq_false_iff_not] at hf
    cases hff : x.family with
    | v4 => exact absurd hff hf
    | v6 => rfl
  · rintro ⟨hx, hf⟩
    refine ⟨hx, ?_⟩
    simp only [Function.comp_apply, Bool.not_eq_true', decide_eq_false_iff_not]
    rw [hf]
    intro hcontra
    cases hcontra

theorem get_all_eq (l : List IpNet) :
    (ReduceTrie.with_prefixes l).get_all_prefixes =
      collect_prefixes (build_for_family (fam4 l)).root ++
        collect_prefixes (build_for_family (fam6 l)).root ++
        (build_for_family (fam4 l)).hosts ++ (build_for_family (fam6 l)).hosts := rfl

/-- Whole-engine correctness under network identification: the output of
the trie reduction is, as a set, exactly the set of input prefixes not
covered by any broader input prefix. -/
theorem get_all_mem_iff (l : List IpNet) (hv : ∀ q ∈ l, ValidPfx q) (hnd : NoDupNet l)
    (x : IpNet) :
    x ∈ (ReduceTrie.with_prefixes l).get_all_prefixes ↔ (x ∈ l ∧ Minim l x) := by
  have hv4 : ∀ q ∈ fam4 l, ValidPfx q ∧ q.family = Family.v4 :=
    fun q hq => ⟨hv q (mem_fam4.mp hq).1, (mem_fam4.mp hq).2⟩
  have hv6 : ∀ q ∈ fam6 l, ValidPfx q ∧ q.family = Family.v6 :=
    fun q hq => ⟨hv q (mem_fam6.mp hq).1, (mem_fam6.mp hq).2⟩
  have hnd4 : NoDupNet (fam4 l) := by
    intro a ha b hb h1 h2 h3
    exact hnd a (mem_fam4.mp ha).1 b (mem_fam4.mp hb).1 h1 h2 h3
  have hnd6 : NoDupNet (fam6 l) := by
    intro a ha b hb h1 h2 h3
    exact hnd a (mem_fam6.mp ha).1 b (mem_fam6.mp hb).1 h1 h2 h3
  have h4 := build_mem_iff (fam4 l) hv4 hnd4 x
  have h6 := build_mem_iff (fam6 l) hv6 hnd6 x
  rw [get_all_eq]
  simp only [List.mem_append]
  constructor
  · intro hmem
    have hsplit : (x ∈ fam4 l ∧ Minim (fam4 l) x) ∨ (x ∈ fam6 l ∧ Minim (fam6 l) x) := by
      rcases hmem with ((hc4 | hc6) | hh4) | hh6
      · exact Or.inl (h4.mp (Or.inl hc4))
      · exact Or.inr (h6.mp (Or.inl hc6))
      · exact Or.inl (h4.mp (Or.inr hh4))
      · exact Or.inr (h6.mp (Or.inr hh6))
    rcases hsplit with ⟨hxm, hmin⟩ | ⟨hxm, hmin⟩
    · refine ⟨(mem_fam4.mp hxm).1, ?_⟩
      intro r hr hcov
      refine hmin r ?_ hcov
      rw [mem_fam4]
      exact ⟨hr, (covers_family hcov).trans (mem_fam4.mp hxm).2⟩
    · refine ⟨(mem_fam6.mp hxm).1, ?_⟩
      intro r hr hcov
      refine hmin r ?_ hcov
      rw [mem_fam6]
      exact ⟨hr, (covers_family hcov).trans (mem_fam6.mp hxm).2⟩
  · rintro ⟨hxl, hmin⟩
    cases hxf : x.family with
    | v4 =>
      have hx4 : x ∈ fam4 l := mem_fam4.mpr ⟨hxl, hxf⟩
      have hmin4 : Minim (fam4 l) x := fun r hr hcov => hmin r (mem_fam4.mp hr).1 hcov
      rcases h4.mpr ⟨hx4, hmin4⟩ with hc | hh
      · exact Or.inl (Or.inl (Or.inl hc))
      · exact Or.inl (Or.inr hh)
    | v6 =>
      have hx6 : x ∈ fam6 l := mem_fam6.mpr ⟨hxl, hxf⟩
      have hmin6 : Minim (fam6 l) x := fun r hr hcov => hmin r (mem_fam6.mp hr).1 hcov
      rcases h6.mpr ⟨hx6, hmin6⟩ with hc | hh
      · exact Or.inl (Or.inl (Or.inr hc))
      · exact Or.inr hh

theorem network_host {p : IpNet} (h : p.len = p.family.width) : network p = p.addr := by
  unfold network
  rw [h, Nat.sub_self, pow_zero, Nat.div_one, Nat.mul_one]

theorem ipnet_fields_eq {x y : IpNet} (h1 : x.family = y.family) (h2 : x.addr = y.addr)
    (h3 : x.len = y.len) : x = y := by
  cases x with
  | mk f a n =>
    cases y with
    | mk f' a' n' =>
      simp only at h1 h2 h3
      subst h1
      subst h2
      subst h3
      rfl

theorem pathTo_eq_of_network_eq {x y : IpNet} (hx : ValidPfx x) (hy : ValidPfx y)
    (hf : x.family = y.family) (hlen : x.len = y.len) (hnet : network x = network y) :
    pathTo x x.len = pathTo y x.len := by
  unfold network at hnet
  rw [← hf, ← hlen] at hnet
  have hub : upperBits x x.len = upperBits y x.len := by
    unfold upperBits
    rw [← hf]
    exact Nat.eq_of_mul_eq_mul_right (Nat.pos_pow_of_pos _ (by omega)) hnet
  apply pathTo_eq_iff.mpr
  exact (upperBits_eq_iff_bits hx hy hf (by rw [← hf]; exact hx.2)).mp hub

/-- Unconditional characterization of a family build's output: every
output member is an input member, and it sits identifiably in the
structure (a trie terminal at its own path for network prefixes, a kept
host otherwise). -/
theorem build_out_char {f : Family} (l : List IpNet)
    (hv : ∀ q ∈ l, ValidPfx q ∧ q.family = f) :
    ∀ x, (x ∈ collect_prefixes (build_for_family l).root ∨ x ∈ (build_for_family l).hosts) →
      x ∈ l ∧
      ((x.len < x.family.width ∧
          termAt ((netsOf l).foldl insStep Node.empty) (pathTo x x.len) = some x) ∨
        (x.len = x.family.width ∧
          ¬ find_insert_leaf ((netsOf l).foldl insStep Node.empty) x = none)) := by
  have hv_nets : ∀ q ∈ netsOf l, ValidPfx q ∧ q.family = f :=
    fun q hq => hv q (mem_netsOf.mp hq).1
  have hsub : TrieSub (netsOf l) ((netsOf l).foldl insStep Node.empty) := by
    have := trieSubCont_fold (netsOf l) [] Node.empty
      (by rw [List.nil_append]; exact hv_nets)
      (by rw [List.nil_append]; exact netsOf_pairwise l)
      trieSub_empty trieCont_empty
    rw [List.nil_append] at this
    exact this.1
  have hok : node_ok ((netsOf l).foldl insStep Node.empty) = true :=
    node_ok_foldl (netsOf l) Node.empty node_ok_empty
  intro x hx
  rcases hx with hcol | hhost
  · rw [build_for_family_root] at hcol
    obtain ⟨path, hterm⟩ := (mem_collect_iff x _ hok).mp hcol
    obtain ⟨hxn, hpath⟩ := hsub path x hterm
    have hxw := (mem_netsOf.mp hxn).2
    refine ⟨(mem_netsOf.mp hxn).1, Or.inl ⟨hxw, ?_⟩⟩
    rw [← hpath]
    exact hterm
  · rw [build_for_family_hosts, List.mem_filter] at hhost
    obtain ⟨hxh, hkept⟩ := hhost
    obtain ⟨hxl, hxw⟩ := mem_hostsIn.mp hxh
    have hxv := (hv x hxl).1
    have hx2 := hxv.2
    refine ⟨hxl, Or.inr ⟨by omega, ?_⟩⟩
    intro hcontra
    rw [hcontra] at hkept
    cases hkept

/-- Unconditional antichain property of a family build's output. -/
theorem build_antichain {f : Family} (l : List IpNet)
    (hv : ∀ q ∈ l, ValidPfx q ∧ q.family = f) :
    ∀ x y, (x ∈ collect_prefixes (build_for_family l).root ∨ x ∈ (build_for_family l).hosts) →
      (y ∈ collect_prefixes (build_for_family l).root ∨ y ∈ (build_for_family l).hosts) →
      ¬ covers x y := by
  have hok : node_ok ((netsOf l).foldl insStep Node.empty) = true :=
    node_ok_foldl (netsOf l) Node.empty node_ok_empty
  intro x y hx hy hcov
  obtain ⟨hxl, hxc⟩ := build_out_char l hv x hx
  obtain ⟨hyl, hyc⟩ := build_out_char l hv y hy
  have hxv := (hv x hxl).1
  have hyv := (hv y hyl).1
  obtain ⟨hff, hlt, hbits⟩ := (covers_iff_pathTo hxv hyv).mp hcov
  rcases hxc with ⟨hxw, hxterm⟩ | ⟨hxw, _⟩
  · rcases hyc with ⟨_, hyterm⟩ | ⟨_, hykept⟩
    · have hxy_pre : pathTo x x.len <+: pathTo y y.len := by
        rw [hbits]
        exact pathTo_prefix y (le_of_lt hlt)
      obtain ⟨t, ht⟩ := hxy_pre
      cases t with
      | nil =>
        rw [List.append_nil] at ht
        have := congrArg List.length ht
        rw [pathTo_length, pathTo_length] at this
        omega
      | cons e es =>
        have hnone := node_ok_no_term_below (pathTo x x.len) _ hok x hxterm e es
        rw [ht, hyterm] at hnone
        cases hnone
    · apply hykept
      rw [find_insert_leaf_eq_none_iff]
      refine ⟨x.len, hlt, ?_⟩
      rw [← hbits, hxterm]
      rfl
  · have hyw : y.len ≤ y.family.width := hyv.2
    rw [← hff, ← hxw] at hyw
    omega

/-- Unconditional network identification of a family build's output. -/
theorem build_outNoDup {f : Family} (l : List IpNet)
    (hv : ∀ q ∈ l, ValidPfx q ∧ q.family = f) :
    ∀ x y, (x ∈ collect_prefixes (build_for_family l).root ∨ x ∈ (build_for_family l).hosts) →
      (y ∈ collect_prefixes (build_for_family l).root ∨ y ∈ (build_for_family l).hosts) →
      x.family = y.family → x.len = y.len → network x = network y → x = y := by
  intro x y hx hy hff hlen hnet
  obtain ⟨hxl, hxc⟩ := build_out_char l hv x hx
  obtain ⟨hyl, hyc⟩ := build_out_char l hv y hy
  have hxv := (hv x hxl).1
  have hyv := (hv y hyl).1
  rcases hxc with ⟨hxw, hxterm⟩ | ⟨hxw, _⟩
  · rcases hyc with ⟨hyw, hyterm⟩ | ⟨hyw, _⟩
    · have hbits : pathTo x x.len = pathTo y x.len :=
        pathTo_eq_of_network_eq hxv hyv hff hlen hnet
      have hpaths : pathTo x x.len = pathTo y y.len := by
        rw [hbits, hlen]
      rw [hpaths, hyterm] at hxterm
      exact (Option.some_inj.mp hxterm).symm
    · rw [hff, hlen] at hxw
      omega
  · rcases hyc with ⟨hyw, _⟩ | ⟨hyw, _⟩
    · rw [hff, hlen] at hxw
      omega
    · have hax : network x = x.addr := network_host hxw
      have hay : network y = y.addr := network_host hyw
      exact ipnet_fields_eq hff (by rw [← hax, ← hay, hnet]) hlen

theorem get_all_split (l : List IpNet) (x : IpNet) :
    x ∈ (ReduceTrie.with_prefixes l).get_all_prefixes ↔
      ((x ∈ collect_prefixes (build_for_family (fam4 l)).root ∨
          x ∈ (build_for_family (fam4 l)).hosts) ∨
        (x ∈ collect_prefixes (build_for_family (fam6 l)).root ∨
          x ∈ (build_for_family (fam6 l)).hosts)) := by
  rw [get_all_eq]
  simp only [List.mem_append]
  tauto

theorem hv_fam4 {l : List IpNet} (hv : ∀ q ∈ l, ValidPfx q) :
    ∀ q ∈ fam4 l, ValidPfx q ∧ q.family = Family.v4 :=
  fun q hq => ⟨hv q (mem_fam4.mp hq).1, (mem_fam4.mp hq).2⟩

theorem hv_fam6 {l : List IpNet} (hv : ∀ q ∈ l, ValidPfx q) :
    ∀ q ∈ fam6 l, ValidPfx q ∧ q.family = Family.v6 :=
  fun q hq => ⟨hv q (mem_fam6.mp hq).1, (mem_fam6.mp hq).2⟩

/-- Every output entry is an input entry. -/
theorem get_all_sub (l : List IpNet) (hv : ∀ q ∈ l, ValidPfx q) :
    ∀ x ∈ (ReduceTrie.with_prefixes l).get_all_prefixes, x ∈ l := by
  intro x hx
  rcases (get_all_split l x).mp hx with h | h
  · exact (mem_fam4.mp (build_out_char (fam4 l) (hv_fam4 hv) x h).1).1
  · exact (mem_fam6.mp (build_out_char (fam6 l) (hv_fam6 hv) x h).1).1

/-- No output entry covers another (unconditional antichain). -/
theorem get_all_antichain (l : List IpNet) (hv : ∀ q ∈ l, ValidPfx q) :
    ∀ x ∈ (ReduceTrie.with_prefixes l).get_all_prefixes,
      ∀ y ∈ (ReduceTrie.with_prefixes l).get_all_prefixes, ¬ covers x y := by
  intro x hx y hy hcov
  rcases (get_all_split l x).mp hx with h4x | h6x <;>
    rcases (get_all_split l y).mp hy with h4y | h6y
  · exact build_antichain (fam4 l) (hv_fam4 hv) x y h4x h4y hcov
  · have hxf := (mem_fam4.mp (build_out_char (fam4 l) (hv_fam4 hv) x h4x).1).2
    have hyf := (mem_fam6.mp (build_out_char (fam6 l) (hv_fam6 hv) y h6y).1).2
    have := covers_family hcov
    rw [hxf, hyf] at this
    cases this
  · have hxf := (mem_fam6.mp (build_out_char (fam6 l) (hv_fam6 hv) x h6x).1).2
    have hyf := (mem_fam4.mp (build_out_char (fam4 l) (hv_fam4 hv) y h4y).1).2
    have := covers_family hcov
    rw [hxf, hyf] at this
    cases this
  · exact build_antichain (fam6 l) (hv_fam6 hv) x y h6x h6y hcov

/-- The output identifies prefixes by network (unconditional). -/
theorem get_all_outNoDup (l : List IpNet) (hv : ∀ q ∈ l, ValidPfx q) :
    NoDupNet (ReduceTrie.with_prefixes l).get_all_prefixes := by
  intro x hx y hy hff hlen hnet
  rcases (get_all_split l x).mp hx with h4x | h6x <;>
    rcases (get_all_split l y).mp hy with h4y | h6y
  · exact build_outNoDup (fam4 l) (hv_fam4 hv) x y h4x h4y hff hlen hnet
  · have hxf := (mem_fam4.mp (build_out_char (fam4 l) (hv_fam4 hv) x h4x).1).2
    have hyf := (mem_fam6.mp (build_out_char (fam6 l) (hv_fam6 hv) y h6y).1).2
    rw [hxf, hyf] at hff
    cases hff
  · have hxf := (mem_fam6.mp (build_out_char (fam6 l) (hv_fam6 hv) x h6x).1).2
    have hyf := (mem_fam4.mp (build_out_char (fam4 l) (hv_fam4 hv) y h4y).1).2
    rw [hxf, hyf] at hff
    cases hff
  · exact build_outNoDup (fam6 l) (hv_fam6 hv) x y h6x h6y hff hlen hnet

/-- Idempotence of the trie reduction at the prefix level: reducing the
output again returns the same set. -/
theorem get_all_idem (l : List IpNet) (hv : ∀ q ∈ l, ValidPfx q) (x : IpNet) :
    x ∈ (ReduceTrie.with_prefixes
          (ReduceTrie.with_prefixes l).get_all_prefixes).get_all_prefixes ↔
      x ∈ (ReduceTrie.with_prefixes l).get_all_prefixes := by
  have hvO : ∀ q ∈ (ReduceTrie.with_prefixes l).get_all_prefixes, ValidPfx q :=
    fun q hq => hv q (get_all_sub l hv q hq)
  rw [get_all_mem_iff _ hvO (get_all_outNoDup l hv) x]
  constructor
  · exact fun h => h.1
  · intro h
    exact ⟨h, fun r hr => get_all_antichain l hv r hr x h⟩

theorem minim_append_single {S : List IpNet} {p x : IpNet} (hx : x.len ≤ p.len) :
    Minim (S ++ [p]) x ↔ Minim S x := by
  constructor
  · intro h r hr hc
    exact h r (List.mem_append_left _ hr) hc
  · intro h r hr hc
    rcases List.mem_append.mp hr with hrS | hrp
    · exact h r hrS hc
    · rw [List.mem_singleton] at hrp
      subst hrp
      have := hc.1
      omega

theorem minim_congr {S S' : List IpNet} (h : ∀ a, a ∈ S ↔ a ∈ S') (x : IpNet) :
    Minim S x ↔ Minim S' x := by
  constructor
  · intro hm r hr hc
    exact hm r ((h r).mpr hr) hc
  · intro hm r hr hc
    exact hm r ((h r).mp hr) hc

theorem rinv_nil : RInv [] ReducePrefixList.new := by
  constructor <;> intro x <;> simp [ReducePrefixList.new]

/-- One step of the linear-scan insertion on a single family list. -/
theorem rpl_vec_step (S vec : List IpNet) (p : IpNet) (fam : Family)
    (hS : ∀ q ∈ S, ValidPfx q ∧ q.len ≤ p.len)
    (hp : ValidPfx p) (hpf : p.family = fam)
    (hnd : NoDupNet (S ++ [p]))
    (hvec : ∀ x, x ∈ vec ↔ (x ∈ S ∧ x.family = fam ∧ Minim S x)) :
    ∀ x, (x ∈ if vec.any (fun e => decide (containsAddr e p.family (network p))) then vec
            else vec ++ [p]) ↔
      (x ∈ S ++ [p] ∧ x.family = fam ∧ Minim (S ++ [p]) x) := by
  have hold : ∀ x, x ∈ vec → (x ∈ S ++ [p] ∧ x.family = fam ∧ Minim (S ++ [p]) x) := by
    intro x hx
    obtain ⟨hxS, hxf, hxmin⟩ := (hvec x).mp hx
    exact ⟨List.mem_append_left _ hxS, hxf,
      (minim_append_single (hS x hxS).2).mpr hxmin⟩
  have hold' : ∀ x, x ∈ S → x.family = fam → Minim (S ++ [p]) x → x ∈ vec := by
    intro x hxS hxf hxmin
    exact (hvec x).mpr ⟨hxS, hxf, fun r hr hc => hxmin r (List.mem_append_left _ hr) hc⟩
  by_cases hskip : vec.any (fun e => decide (containsAddr e p.family (network p))) = true
  · rw [if_pos hskip]
    obtain ⟨e, he_mem, he_dec⟩ := List.any_eq_true.mp hskip
    have he_cont : containsAddr e p.family (network p) := of_decide_eq_true he_dec
    obtain ⟨heS, hef, hemin⟩ := (hvec e).mp he_mem
    have helen := (hS e heS).2
    by_cases helt : e.len < p.len
    · have hcov : covers e p := ⟨helt, he_cont⟩
      intro x
      constructor
      · exact hold x
      · rintro ⟨hxSp, hxf, hxmin⟩
        rcases List.mem_append.mp hxSp with hxS | hxp
        · exact hold' x hxS hxf hxmin
        · rw [List.mem_singleton] at hxp
          subst hxp
          exact absurd hcov (hxmin e (List.mem_append_left _ heS))
    · have hlen_eq : e.len = p.len := by omega
      have hnet : network e = network p := by
        obtain ⟨hef', hdiv⟩ := he_cont
        rw [hef', hlen_eq] at hdiv
        rw [network_div_eq (le_refl (p.family.width - p.len))] at hdiv
        unfold network
        rw [hef', hlen_eq, ← hdiv]
      have hep : e = p :=
        hnd e (List.mem_append_left _ heS) p
          (List.mem_append_right _ (List.mem_singleton_self p)) he_cont.1 hlen_eq hnet
      subst hep
      intro x
      constructor
      · exact hold x
      · rintro ⟨hxSp, hxf, hxmin⟩
        rcases List.mem_append.mp hxSp with hxS | hxp
        · exact hold' x hxS hxf hxmin
        · rw [List.mem_singleton] at hxp
          subst hxp
          exact he_mem
  · rw [if_neg hskip]
    have hnoskip : ¬ ∃ e ∈ vec, containsAddr e p.family (network p) := by
      rintro ⟨e, he, hc⟩
      exact hskip (List.any_eq_true.mpr ⟨e, he, decide_eq_true hc⟩)
    have hpmin : Minim (S ++ [p]) p := by
      intro r hr hc
      rcases List.mem_append.mp hr with hrS | hrp
      · obtain ⟨r', hr'S, hr'p, hr'min⟩ :=
          exists_minimal_coverer (fun q hq => (hS q hq).1) hp ⟨r, hrS, hc⟩
        apply hnoskip
        refine ⟨r', hold' r' hr'S ((covers_family hr'p).trans hpf) ?_, hr'p.2⟩
        rw [minim_append_single (hS r' hr'S).2]
        exact hr'min
      · rw [List.mem_singleton] at hrp
        subst hrp
        exact absurd hc.1 (lt_irrefl _)
    intro x
    rw [List.mem_append, List.mem_singleton]
    constructor
    · rintro (hx | hxp)
      · exact hold x hx
      · rw [hxp]
        exact ⟨List.mem_append_right _ (List.mem_singleton_self p), hpf, hpmin⟩
    · rintro ⟨hxSp, hxf, hxmin⟩
      rcases List.mem_append.mp hxSp with hxS | hxp
      · exact Or.inl (hold' x hxS hxf hxmin)
      · rw [List.mem_singleton] at hxp
        exact Or.inr hxp

theorem insert_v4_ipv4 (st : ReducePrefixList) (p : IpNet) (hpf : p.family = Family.v4) :
    ((st.insert p).1).ipv4 =
      if st.ipv4.any (fun e => decide (containsAddr e p.family (network p))) then st.ipv4
      else st.ipv4 ++ [p] := by
  unfold ReducePrefixList.insert
  rw [hpf]
  by_cases hc : st.ipv4.any (fun e => decide (containsAddr e Family.v4 (network p))) = true
  · simp [hc]
  · simp [hc]

theorem insert_v4_ipv6 (st : ReducePrefixList) (p : IpNet) (hpf : p.family = Family.v4) :
    ((st.insert p).1).ipv6 = st.ipv6 := by
  unfold ReducePrefixList.insert
  rw [hpf]
  by_cases hc : st.ipv4.any (fun e => decide (containsAddr e Family.v4 (network p))) = true
  · simp [hc]
  · simp [hc]

theorem insert_v6_ipv6 (st : ReducePrefixList) (p : IpNet) (hpf : p.family = Family.v6) :
    ((st.insert p).1).ipv6 =
      if st.ipv6.any (fun e => decide (containsAddr e p.family (network p))) then st.ipv6
      else st.ipv6 ++ [p] := by
  unfold ReducePrefixList.insert
  rw [hpf]
  by_cases hc : st.ipv6.any (fun e => decide (containsAddr e Family.v6 (network p))) = true
  · simp [hc]
  · simp [hc]

theorem insert_v6_ipv4 (st : ReducePrefixList) (p : IpNet) (hpf : p.family = Family.v6) :
    ((st.insert p).1).ipv4 = st.ipv4 := by
  unfold ReducePrefixList.insert
  rw [hpf]
  by_cases hc : st.ipv6.any (fun e => decide (containsAddr e Family.v6 (network p))) = true
  · simp [hc]
  · simp [hc]

theorem rinv_step {S : List IpNet} {st : ReducePrefixList} {p : IpNet}
    (hS : ∀ q ∈ S, ValidPfx q ∧ q.len ≤ p.len)
    (hp : ValidPfx p) (hnd : NoDupNet (S ++ [p]))
    (hinv : RInv S st) :
    RInv (S ++ [p]) (st.insert p).1 := by
  obtain ⟨h4, h6⟩ := hinv
  have hother : ∀ (fam : Family), p.family ≠ fam →
      ∀ (vec : List IpNet), (∀ x, x ∈ vec ↔ (x ∈ S ∧ x.family = fam ∧ Minim S x)) →
      ∀ x, x ∈ vec ↔ (x ∈ S ++ [p] ∧ x.family = fam ∧ Minim (S ++ [p]) x) := by
    intro fam hne vec hvec x
    constructor
    · intro hx
      obtain ⟨hxS, hxf, hxmin⟩ := (hvec x).mp hx
      exact ⟨List.mem_append_left _ hxS, hxf,
        (minim_append_single (hS x hxS).2).mpr hxmin⟩
    · rintro ⟨hxSp, hxf, hxmin⟩
      rcases List.mem_append.mp hxSp with hxS | hxp
      · exact (hvec x).mpr ⟨hxS, hxf, fun r hr hc => hxmin r (List.mem_append_left _ hr) hc⟩
      · rw [List.mem_singleton] at hxp
        exact absurd (by rw [← hxp]; exact hxf) hne
  cases hpf : p.family with
  | v4 =>
    constructor
    · intro x
      rw [insert_v4_ipv4 st p hpf]
      exact rpl_vec_step S st.ipv4 p Family.v4 hS hp hpf hnd h4 x
    · intro x
      rw [insert_v4_ipv6 st p hpf]
      exact hother Family.v6 (by rw [hpf]; intro hcontra; cases hcontra) st.ipv6 h6 x
  | v6 =>
    constructor
    · intro x
      rw [insert_v6_ipv4 st p hpf]
      exact hother Family.v4 (by rw [hpf]; intro hcontra; cases hcontra) st.ipv4 h4 x
    · intro x
      rw [insert_v6_ipv6 st p hpf]
      exact rpl_vec_step S st.ipv6 p Family.v6 hS hp hpf hnd h6 x

theorem rinv_fold :
    ∀ (L Sdone : List IpNet) (st : ReducePrefixList),
      (∀ q ∈ Sdone ++ L, ValidPfx q) →
      List.Pairwise (fun a b => a.len ≤ b.len) (Sdone ++ L) →
      NoDupNet (Sdone ++ L) →
      RInv Sdone st →
      RInv (Sdone ++ L) (L.foldl (fun st p => (st.insert p).1) st)
  | [], Sdone, st, _, _, _, hinv => by
    rw [List.append_nil]
    exact hinv
  | p :: L', Sdone, st, hv, hpw, hnd, hinv => by
    have hassoc : Sdone ++ p :: L' = (Sdone ++ [p]) ++ L' := by simp
    have hvp := hv p (List.mem_append_right _ (List.mem_cons_self _ _))
    have hS : ∀ q ∈ Sdone, ValidPfx q ∧ q.len ≤ p.len := by
      intro q hq
      refine ⟨hv q (List.mem_append_left _ hq), ?_⟩
      exact (List.pairwise_append.mp hpw).2.2 q hq p (List.mem_cons_self _ _)
    have hup : ∀ a, a ∈ Sdone ++ [p] → a ∈ Sdone ++ p :: L' := by
      intro a ha
      rcases List.mem_append.mp ha with h | h
      · exact List.mem_append_left _ h
      · rw [List.mem_singleton] at h
        subst h
        exact List.mem_append_right _ (List.mem_cons_self _ _)
    have hnd1 : NoDupNet (Sdone ++ [p]) := by
      intro a ha b hb h1 h2 h3
      exact hnd a (hup a ha) b (hup b hb) h1 h2 h3
    have hstep := rinv_step hS hvp hnd1 hinv
    rw [List.foldl_cons, hassoc]
    exact rinv_fold L' (Sdone ++ [p]) ((st.insert p).1)
      (hassoc ▸ hv) (hassoc ▸ hpw) (hassoc ▸ hnd) hstep

/-- Whole-engine correctness of the linear-scan reducer under network
identification. -/
theorem rpl_get_all_mem_iff (l : List IpNet) (hv : ∀ q ∈ l, ValidPfx q)
    (hnd : NoDupNet l) (x : IpNet) :
    x ∈ (ReducePrefixList.with_prefixes l).get_all_prefixes ↔ (x ∈ l ∧ Minim l x) := by
  have hmemeq : ∀ a, a ∈ sort_prefixes l ↔ a ∈ l := fun a => mem_sort_iff l a
  have hinv : RInv (sort_prefixes l)
      ((sort_prefixes l).foldl (fun st p => (st.insert p).1) ReducePrefixList.new) := by
    have := rinv_fold (sort_prefixes l) [] ReducePrefixList.new
      (by rw [List.nil_append]; intro q hq; exact hv q ((hmemeq q).mp hq))
      (by rw [List.nil_append]; exact sort_prefixes_pairwise l)
      (by
        rw [List.nil_append]
        intro a ha b hb h1 h2 h3
        exact hnd a ((hmemeq a).mp ha) b ((hmemeq b).mp hb) h1 h2 h3)
      rinv_nil
    rwa [List.nil_append] at this
  obtain ⟨h4, h6⟩ := hinv
  unfold ReducePrefixList.with_prefixes ReducePrefixList.get_all_prefixes
  rw [List.mem_append, h4 x, h6 x]
  constructor
  · rintro (⟨hxs, _, hmin⟩ | ⟨hxs, _, hmin⟩) <;>
      exact ⟨(hmemeq x).mp hxs, ((minim_congr hmemeq x).mp hmin)⟩
  · rintro ⟨hxl, hmin⟩
    have hxs := (hmemeq x).mpr hxl
    have hmins := (minim_congr hmemeq x).mpr hmin
    cases hxf : x.family with
    | v4 => exact Or.inl ⟨hxs, rfl, hmins⟩
    | v6 => exact Or.inr ⟨hxs, rfl, hmins⟩

theorem div_coarsen {a b m m' : Nat} (h : a / 2 ^ m = b / 2 ^ m) (hm : m ≤ m') :
    a / 2 ^ m' = b / 2 ^ m' := by
  obtain ⟨k, rfl⟩ := Nat.exists_eq_add_of_le hm
  rw [pow_add, ← Nat.div_div_eq_div_mul, ← Nat.div_div_eq_div_mul, h]

theorem containsNet_to_containsAddr {q x : IpNet} (hq : ValidPfx q) (hx : ValidPfx x)
    (h : containsNet q x) : containsAddr q x.family (network x) := by
  obtain ⟨hf, hlen, hbits⟩ := h
  refine ⟨hf, ?_⟩
  rw [hf]
  rw [network_div_eq (Nat.sub_le_sub_left hlen _)]
  have := (upperBits_eq_iff_bits hq hx hf (le_trans hlen hx.2)).mpr (pathTo_eq_iff.mp hbits)
  unfold upperBits at this
  rw [hf] at this
  exact this.symm

/-- Every member of a family's input has a container among the family
build's output entries (unconditional). -/
theorem build_containers {f : Family} (l : List IpNet)
    (hv : ∀ q ∈ l, ValidPfx q ∧ q.family = f) :
    ∀ x ∈ l, ∃ e,
      (e ∈ collect_prefixes (build_for_family l).root ∨ e ∈ (build_for_family l).hosts) ∧
      containsNet e x := by
  have hv_nets : ∀ q ∈ netsOf l, ValidPfx q ∧ q.family = f :=
    fun q hq => hv q (mem_netsOf.mp hq).1
  obtain ⟨hsub, hcont⟩ := by
    have := trieSubCont_fold (netsOf l) [] Node.empty
      (by rw [List.nil_append]; exact hv_nets)
      (by rw [List.nil_append]; exact netsOf_pairwise l)
      trieSub_empty trieCont_empty
    rw [List.nil_append] at this
    exact this
  have hok : node_ok ((netsOf l).foldl insStep Node.empty) = true :=
    node_ok_foldl (netsOf l) Node.empty node_ok_empty
  intro x hx
  by_cases hxw : x.len < x.family.width
  · have hxn : x ∈ netsOf l := mem_netsOf.mpr ⟨hx, hxw⟩
    obtain ⟨q, ⟨π, hterm⟩, hqx⟩ := hcont x hxn
    refine ⟨q, Or.inl ?_, hqx⟩
    rw [build_for_family_root]
    exact (mem_collect_iff q _ hok).mpr ⟨π, hterm⟩
  · have hxh : x ∈ hostsIn l := mem_hostsIn.mpr ⟨hx, hxw⟩
    by_cases hkept : (find_insert_leaf ((netsOf l).foldl insStep Node.empty) x).isSome = true
    · refine ⟨x, Or.inr ?_, rfl, le_refl _, rfl⟩
      rw [build_for_family_hosts, List.mem_filter]
      exact ⟨hxh, hkept⟩
    · have hnone : find_insert_leaf ((netsOf l).foldl insStep Node.empty) x = none := by
        cases hfl : find_insert_leaf ((netsOf l).foldl insStep Node.empty) x with
        | none => rfl
        | some v =>
          rw [hfl] at hkept
          simp at hkept
      obtain ⟨i, hi, hterm⟩ := (find_insert_leaf_eq_none_iff _ x).mp hnone
      obtain ⟨q, hq⟩ := Option.isSome_iff_exists.mp hterm
      obtain ⟨hqn, hpath⟩ := hsub _ q hq
      have hilen : i = q.len := by
        have := congrArg List.length hpath
        rwa [pathTo_length, pathTo_length] at this
      refine ⟨q, Or.inl ?_, ?_, by omega, ?_⟩
      · rw [build_for_family_root]
        exact (mem_collect_iff q _ hok).mpr ⟨_, hq⟩
      · exact ((hv q (mem_netsOf.mp hqn).1).2).trans ((hv x hx).2).symm
      · rw [← hilen] at hpath ⊢
        exact hpath.symm

/-- Every input prefix's network has a containing output entry. -/
theorem get_all_containers (l : List IpNet) (hv : ∀ q ∈ l, ValidPfx q) :
    ∀ x ∈ l, ∃ e ∈ (ReduceTrie.with_prefixes l).get_all_prefixes,
      containsAddr e x.family (network x) := by
  intro x hx
  cases hxf : x.family with
  | v4 =>
    obtain ⟨e, he_out, he_cont⟩ :=
      build_containers (fam4 l) (hv_fam4 hv) x (mem_fam4.mpr ⟨hx, hxf⟩)
    have he_l := (mem_fam4.mp (build_out_char (fam4 l) (hv_fam4 hv) e he_out).1).1
    refine ⟨e, (get_all_split l e).mpr (Or.inl he_out), ?_⟩
    rw [← hxf]
    exact containsNet_to_containsAddr (hv e he_l) (hv x hx) he_cont
  | v6 =>
    obtain ⟨e, he_out, he_cont⟩ :=
      build_containers (fam6 l) (hv_fam6 hv) x (mem_fam6.mpr ⟨hx, hxf⟩)
    have he_l := (mem_fam6.mp (build_out_char (fam6 l) (hv_fam6 hv) e he_out).1).1
    refine ⟨e, (get_all_split l e).mpr (Or.inr he_out), ?_⟩
    rw [← hxf]
    exact containsNet_to_containsAddr (hv e he_l) (hv x hx) he_cont

/-- At most one output entry contains a given input network. -/
theorem get_all_unique_container (l : List IpNet) (hv : ∀ q ∈ l, ValidPfx q) (x : IpNet) :
    ∀ e1 ∈ (ReduceTrie.with_prefixes l).get_all_prefixes,
      ∀ e2 ∈ (ReduceTrie.with_prefixes l).get_all_prefixes,
        containsAddr e1 x.family (network x) → containsAddr e2 x.family (network x) →
        e1 = e2 := by
  have key : ∀ e1, e1 ∈ (ReduceTrie.with_prefixes l).get_all_prefixes →
      ∀ e2, e2 ∈ (ReduceTrie.with_prefixes l).get_all_prefixes →
      containsAddr e1 x.family (network x) → containsAddr e2 x.family (network x) →
      e1.len < e2.len → False := by
    intro e1 he1 e2 he2 hc1 hc2 hlt
    have hf12 : e1.family = e2.family := hc1.1.trans hc2.1.symm
    apply get_all_antichain l hv e1 he1 e2 he2
    refine ⟨hlt, hf12, ?_⟩
    rw [hf12]
    rw [network_div_eq (Nat.sub_le_sub_left (le_of_lt hlt) _)]
    have hc2' := div_coarsen hc2.2 (Nat.sub_le_sub_left (le_of_lt hlt) e2.family.width)
    have hc1' : network x / 2 ^ (e2.family.width - e1.len) =
        e1.addr / 2 ^ (e2.family.width - e1.len) := by
      have h := hc1.2
      rwa [hf12] at h
    rw [← hc2', hc1']
  intro e1 he1 e2 he2 hc1 hc2
  rcases Nat.lt_trichotomy e1.len e2.len with hlt | heq | hgt
  · exact absurd (key e1 he1 e2 he2 hc1 hc2 hlt) (fun h => h)
  · have hf12 : e1.family = e2.family := hc1.1.trans hc2.1.symm
    have hdiv : e1.addr / 2 ^ (e1.family.width - e1.len) =
        e2.addr / 2 ^ (e1.family.width - e1.len) := by
      rw [← hc1.2]
      have := div_coarsen hc2.2 (le_refl (e2.family.width - e2.len))
      rw [← hf12, ← heq] at this
      exact this
    have hnet : network e1 = network e2 := by
      unfold network
      rw [← hf12, ← heq, hdiv]
    exact get_all_outNoDup l hv e1 he1 e2 he2 hf12 heq hnet
  · exact absurd (key e2 he2 e1 he1 hc2 hc1 hgt) (fun h => h)

theorem idParse_valid : ∀ (s p : IpNet), idParse s = some p → ValidPfx p := by
  intro s p h
  unfold idParse at h
  by_cases hs : ValidPfx s
  · rw [if_pos hs] at h
    rw [← Option.some_inj.mp h]
    exact hs
  · rw [if_neg hs] at h
    cases h

theorem idParse_roundtrip : ∀ p : IpNet, ValidPfx p → idParse (id p) = some p := by
  intro p hp
  unfold idParse
  rw [id]
  rw [if_pos hp]

theorem filterMap_map_roundtrip {σ : Type} (parse : σ → Option IpNet) (render : IpNet → σ)
    (hrt : ∀ p, ValidPfx p → parse (render p) = some p) :
    ∀ (L : List IpNet), (∀ p ∈ L, ValidPfx p) → (L.map render).filterMap parse = L := by
  intro L
  induction L with
  | nil =>
    intro _
    rfl
  | cons p L ih =>
    intro hv
    rw [List.map_cons, List.filterMap_cons, hrt p (hv p (List.mem_cons_self _ _))]
    rw [ih (fun q hq => hv q (List.mem_cons_of_mem _ hq))]

/-- C1 counterexample: on the valid parsed input [10.0.0.0/8,
10.0.0.1/8] (two spellings of the same /8 network, neither covered by a
strictly shorter entry), the trie keeps only the later spelling, so the
output set is not the claimed minimal set. -/
theorem c1_counterexample :
    ¬ (∀ x, x ∈ (ReduceTrie.with_prefixes [cxA1, cxA2]).get_all_prefixes ↔
        (x ∈ [cxA1, cxA2] ∧ ∀ q ∈ [cxA1, cxA2], ¬ covers q x)) := by
  intro h
  have h1 := (h cxA1).mpr (by decide)
  revert h1
  decide

/-- C1 (amended): for every finite list of valid parsed prefixes in
which prefixes are identified by their network (no two distinct members
share family, length and network address), the output of
`ReduceTrie.with_prefixes` followed by `get_all_prefixes`, compared as a
set, equals the minimal equivalent set of the input: exactly those input
prefixes not covered by a broader (strictly shorter, same-family,
containing) entry of the input. -/
theorem c1_trie_minimal_set (l : List IpNet) (hv : ∀ p ∈ l, ValidPfx p)
    (hnd : NoDupNet l) :
    ∀ x, x ∈ (ReduceTrie.with_prefixes l).get_all_prefixes ↔
      (x ∈ l ∧ ∀ q ∈ l, ¬ covers q x) :=
  fun x => get_all_mem_iff l hv hnd x

/-- C1 witness. -/
theorem c1_witness :
    (∀ p ∈ [cxC1, ⟨Family.v4, 3232235776, 24⟩], ValidPfx p) ∧
    NoDupNet [cxC1, ⟨Family.v4, 3232235776, 24⟩] ∧
    (∀ x, x ∈ (ReduceTrie.with_prefixes [cxC1, ⟨Family.v4, 3232235776, 24⟩]).get_all_prefixes ↔
      (x ∈ [cxC1, ⟨Family.v4, 3232235776, 24⟩] ∧
        ∀ q ∈ [cxC1, ⟨Family.v4, 3232235776, 24⟩], ¬ covers q x)) :=
  ⟨by decide, by decide,
    c1_trie_minimal_set [cxC1, ⟨Family.v4, 3232235776, 24⟩] (by decide) (by decide)⟩

/-- C2: for every finite list of valid input prefixes, no output entry
of the reduction strictly covers another output entry (same family,
strictly shorter length, containing the other's network). -/
theorem c2_no_nested_outputs (l : List IpNet) (hv : ∀ p ∈ l, ValidPfx p) :
    ∀ x ∈ (ReduceTrie.with_prefixes l).get_all_prefixes,
      ∀ y ∈ (ReduceTrie.with_prefixes l).get_all_prefixes, ¬ covers x y :=
  get_all_antichain l hv

/-- C2 witness. -/
theorem c2_witness :
    (∀ p ∈ [cxA1, ⟨Family.v4, 167837696, 16⟩, ⟨Family.v6, 1 <<< 120, 8⟩], ValidPfx p) ∧
    (∀ x ∈ (ReduceTrie.with_prefixes
        [cxA1, ⟨Family.v4, 167837696, 16⟩, ⟨Family.v6, 1 <<< 120, 8⟩]).get_all_prefixes,
      ∀ y ∈ (ReduceTrie.with_prefixes
        [cxA1, ⟨Family.v4, 167837696, 16⟩, ⟨Family.v6, 1 <<< 120, 8⟩]).get_all_prefixes,
        ¬ covers x y) :=
  ⟨by decide,
    c2_no_nested_outputs [cxA1, ⟨Family.v4, 167837696, 16⟩, ⟨Family.v6, 1 <<< 120, 8⟩]
      (by decide)⟩

/-- C3: for every finite list of valid input prefixes, every input
prefix's network address is contained in exactly one entry of the
output of the reduction. -/
theorem c3_exactly_one_container (l : List IpNet) (hv : ∀ p ∈ l, ValidPfx p) :
    ∀ x ∈ l, ∃ e ∈ (ReduceTrie.with_prefixes l).get_all_prefixes,
      containsAddr e x.family (network x) ∧
      ∀ e' ∈ (ReduceTrie.with_prefixes l).get_all_prefixes,
        containsAddr e' x.family (network x) → e' = e := by
  intro x hx
  obtain ⟨e, he, hc⟩ := get_all_containers l hv x hx
  exact ⟨e, he, hc, fun e' he' hc' => get_all_unique_container l hv x e' he' e he hc' hc⟩

/-- C3 witness. -/
theorem c3_witness :
    (∀ p ∈ [cxC1, ⟨Family.v4, 3232235777, 32⟩, cxA1], ValidPfx p) ∧
    (∀ x ∈ [cxC1, ⟨Family.v4, 3232235777, 32⟩, cxA1],
      ∃ e ∈ (ReduceTrie.with_prefixes
          [cxC1, ⟨Family.v4, 3232235777, 32⟩, cxA1]).get_all_prefixes,
        containsAddr e x.family (network x) ∧
        ∀ e' ∈ (ReduceTrie.with_prefixes
            [cxC1, ⟨Family.v4, 3232235777, 32⟩, cxA1]).get_all_prefixes,
          containsAddr e' x.family (network x) → e' = e) :=
  ⟨by decide,
    c3_exactly_one_container [cxC1, ⟨Family.v4, 3232235777, 32⟩, cxA1] (by decide)⟩

/-- C4: insertion of a valid prefix aborts, discarding the prefix and
leaving the trie unchanged, exactly when a node carrying a terminal
marker is met on the walk before descending past it; otherwise the node
at the prefix's exact length is marked terminal with this prefix and
both of its child slots are discarded. -/
theorem c4_insert_behavior (root : Node) (p : IpNet) (_hv : ValidPfx p) :
    (insert_into_node root p = (root, false) ↔
      ∃ i, i < p.len ∧ (termAt root (pathTo p i)).isSome = true) ∧
    ((¬ ∃ i, i < p.len ∧ (termAt root (pathTo p i)).isSome = true) →
      (insert_into_node root p).2 = true ∧
      subtreeAt (insert_into_node root p).1 (pathTo p p.len) =
        some (Node.mk none none (some p))) := by
  constructor
  · rw [← insert_go_top_none_iff]
    constructor
    · intro h
      cases hgo : insert_go p p.len root with
      | none => rfl
      | some n' =>
        unfold insert_into_node at h
        rw [hgo] at h
        have := congrArg Prod.snd h
        cases this
    · intro h
      unfold insert_into_node
      rw [h]
  · intro hno
    rw [← insert_go_top_none_iff] at hno
    cases hgo : insert_go p p.len root with
    | none => exact absurd hgo hno
    | some n' =>
      obtain ⟨h1, _, _⟩ := insert_go_some_spec p p.len root n' (le_refl _) hgo
      rw [sufBits_full] at h1
      unfold insert_into_node
      rw [hgo]
      exact ⟨rfl, h1⟩

/-- C4 witness. -/
theorem c4_witness :
    ValidPfx ⟨Family.v4, 2886729728, 12⟩ ∧
    ((insert_into_node Node.empty ⟨Family.v4, 2886729728, 12⟩ = (Node.empty, false) ↔
      ∃ i, i < (⟨Family.v4, 2886729728, 12⟩ : IpNet).len ∧
        (termAt Node.empty (pathTo ⟨Family.v4, 2886729728, 12⟩ i)).isSome = true) ∧
    ((¬ ∃ i, i < (⟨Family.v4, 2886729728, 12⟩ : IpNet).len ∧
        (termAt Node.empty (pathTo ⟨Family.v4, 2886729728, 12⟩ i)).isSome = true) →
      (insert_into_node Node.empty ⟨Family.v4, 2886729728, 12⟩).2 = true ∧
      subtreeAt (insert_into_node Node.empty ⟨Family.v4, 2886729728, 12⟩).1
          (pathTo ⟨Family.v4, 2886729728, 12⟩ 12) =
        some (Node.mk none none (some ⟨Family.v4, 2886729728, 12⟩)))) :=
  ⟨by decide, c4_insert_behavior Node.empty ⟨Family.v4, 2886729728, 12⟩ (by decide)⟩

/-- C5: checking a valid host prefix against a family trie built from
valid same-family network prefixes keeps the host exactly when no node
visited while consuming its address bits carries a terminal marker
(covering both keep cases: a missing child before the bits are
exhausted, and a full walk without a terminal); moreover no terminal in
such a trie sits at depth `h.len` or deeper, so the unchecked final node
of the walk cannot carry a marker.  The check reads the trie only: in
this embedding `find_insert_leaf` returns no modified trie, and
`build_for_family` passes the same root to every host. -/
theorem c5_host_check (l : List IpNet) (f : Family) (h : IpNet)
    (hv : ∀ q ∈ l, ValidPfx q ∧ q.family = f)
    (_hh : ValidPfx h) (hhf : h.family = f) (hlen : h.len = h.family.width) :
    ((find_insert_leaf (build_for_family l).root h).isSome = true ↔
      ¬ ∃ i, i < h.len ∧ (termAt (build_for_family l).root (pathTo h i)).isSome = true) ∧
    (∀ path q, termAt (build_for_family l).root path = some q → path.length < h.len) := by
  constructor
  · rw [Option.isSome_iff_ne_none, ne_eq, find_insert_leaf_eq_none_iff]
  · have hv_nets : ∀ q ∈ netsOf l, ValidPfx q ∧ q.family = f :=
      fun q hq => hv q (mem_netsOf.mp hq).1
    have hsub : TrieSub (netsOf l) ((netsOf l).foldl insStep Node.empty) := by
      have := trieSubCont_fold (netsOf l) [] Node.empty
        (by rw [List.nil_append]; exact hv_nets)
        (by rw [List.nil_append]; exact netsOf_pairwise l)
        trieSub_empty trieCont_empty
      rw [List.nil_append] at this
      exact this.1
    intro path q hterm
    rw [build_for_family_root] at hterm
    obtain ⟨hqn, hpath⟩ := hsub path q hterm
    have hq := hv q (mem_netsOf.mp hqn).1
    have hqw := (mem_netsOf.mp hqn).2
    have hplen : path.length = q.len := by
      rw [hpath, pathTo_length]
    rw [hplen, hlen, hhf, ← hq.2]
    exact hqw

/-- C5 witness. -/
theorem c5_witness :
    (∀ q ∈ [cxC1], ValidPfx q ∧ q.family = Family.v4) ∧
    ValidPfx ⟨Family.v4, 3232235777, 32⟩ ∧
    (⟨Family.v4, 3232235777, 32⟩ : IpNet).family = Family.v4 ∧
    (⟨Family.v4, 3232235777, 32⟩ : IpNet).len =
      (⟨Family.v4, 3232235777, 32⟩ : IpNet).family.width ∧
    (((find_insert_leaf (build_for_family [cxC1]).root ⟨Family.v4, 3232235777, 32⟩).isSome =
        true ↔
      ¬ ∃ i, i < (⟨Family.v4, 3232235777, 32⟩ : IpNet).len ∧
        (termAt (build_for_family [cxC1]).root
          (pathTo ⟨Family.v4, 3232235777, 32⟩ i)).isSome = true) ∧
    (∀ path q, termAt (build_for_family [cxC1]).root path = some q →
      path.length < (⟨Family.v4, 3232235777, 32⟩ : IpNet).len)) :=
  ⟨by decide, by decide, by decide, by decide,
    c5_host_check [cxC1] Family.v4 ⟨Family.v4, 3232235777, 32⟩
      (by decide) (by decide) (by decide) (by decide)⟩

/-- C6: after any sequence of insertions starting from an empty root,
every node holding a terminal marker has both child slots empty
(`node_ok` checks this recursively at every node). -/
theorem c6_terminal_no_children (ps : List IpNet) :
    node_ok (ps.foldl insStep Node.empty) = true :=
  node_ok_foldl ps Node.empty node_ok_empty

/-- C7: `sort_prefixes` returns a permutation (multiset equality) of its
input in which prefix lengths never decrease, so every prefix of a
shorter length appears before every prefix of a longer length. -/
theorem c7_sort_prefixes_spec (l : List IpNet) :
    (sort_prefixes l).Perm l ∧
      List.Pairwise (fun a b => a.len ≤ b.len) (sort_prefixes l) :=
  ⟨sort_prefixes_perm l, sort_prefixes_pairwise l⟩

/-- C8 counterexample: swapping the two lines "10.0.0.0/8" and
"10.0.0.1/8" (both valid, same /8 network, different host bits) changes
the output set of `reduce_cidrs`: the trie keeps the later spelling, so
each order renders a different raw address. -/
theorem c8_counterexample :
    (["10.0.0.0/8", "10.0.0.1/8"] : List String).Perm ["10.0.0.1/8", "10.0.0.0/8"] ∧
    ¬ (∀ x, x ∈ reduce_cidrs c8parse c8render ["10.0.0.0/8", "10.0.0.1/8"] ↔
        x ∈ reduce_cidrs c8parse c8render ["10.0.0.1/8", "10.0.0.0/8"]) := by
  constructor
  · exact List.Perm.swap _ _ _
  · intro h
    have h1 := (h (c8render cxA1)).mpr (by decide)
    revert h1
    decide

/-- C8 (amended): permuting the input lines does not change the output
of `reduce_cidrs` as a set, provided the parsed prefixes of the lines
identify prefixes by their network (no two distinct parsed prefixes
share family, length and network address). -/
theorem c8_permutation_invariance {σ : Type} (parse : σ → Option IpNet)
    (render : IpNet → σ) (lines lines' : List σ)
    (hval : ∀ s p, parse s = some p → ValidPfx p)
    (hperm : lines.Perm lines')
    (hnd : NoDupNet (lines.filterMap parse)) :
    ∀ x, x ∈ reduce_cidrs parse render lines ↔ x ∈ reduce_cidrs parse render lines' := by
  have hpp : (lines.filterMap parse).Perm (lines'.filterMap parse) := hperm.filterMap parse
  have hv : ∀ p ∈ lines.filterMap parse, ValidPfx p := by
    intro p hp
    obtain ⟨s, _, hs⟩ := List.mem_filterMap.mp hp
    exact hval s p hs
  have hv' : ∀ p ∈ lines'.filterMap parse, ValidPfx p :=
    fun p hp => hv p (hpp.mem_iff.mpr hp)
  have hnd' : NoDupNet (lines'.filterMap parse) := by
    intro a ha b hb h1 h2 h3
    exact hnd a (hpp.mem_iff.mpr ha) b (hpp.mem_iff.mpr hb) h1 h2 h3
  have hiff : ∀ y,
      y ∈ (ReduceTrie.with_prefixes (lines.filterMap parse)).get_all_prefixes ↔
      y ∈ (ReduceTrie.with_prefixes (lines'.filterMap parse)).get_all_prefixes := by
    intro y
    rw [get_all_mem_iff _ hv hnd y, get_all_mem_iff _ hv' hnd' y]
    constructor
    · rintro ⟨hy, hmin⟩
      exact ⟨hpp.mem_iff.mp hy, (minim_congr (fun a => hpp.mem_iff) y).mp hmin⟩
    · rintro ⟨hy, hmin⟩
      exact ⟨hpp.mem_iff.mpr hy, (minim_congr (fun a => hpp.mem_iff) y).mpr hmin⟩
  intro x
  unfold reduce_cidrs
  rw [List.mem_map, List.mem_map]
  constructor
  · rintro ⟨y, hy, hr⟩
    exact ⟨y, (hiff y).mp hy, hr⟩
  · rintro ⟨y, hy, hr⟩
    exact ⟨y, (hiff y).mpr hy, hr⟩

/-- C8 witness. -/
theorem c8_witness :
    (∀ s p, idParse s = some p → ValidPfx p) ∧
    ([cxA1, cxC1].Perm [cxC1, cxA1]) ∧
    NoDupNet ([cxA1, cxC1].filterMap idParse) ∧
    (∀ x, x ∈ reduce_cidrs idParse id [cxA1, cxC1] ↔
      x ∈ reduce_cidrs idParse id [cxC1, cxA1]) :=
  ⟨idParse_valid, List.Perm.swap _ _ _, by decide,
    c8_permutation_invariance idParse id [cxA1, cxC1] [cxC1, cxA1] idParse_valid
      (List.Perm.swap _ _ _) (by decide)⟩

/-- C9: applying `reduce_cidrs` to the output of `reduce_cidrs` yields
the same set of output lines as the single application, for any
parse/render collaborator pair that accepts only valid prefixes and
round-trips rendered prefixes (the boundary contract of the external
collaborators in the spec). -/
theorem c9_idempotent {σ : Type} (parse : σ → Option IpNet) (render : IpNet → σ)
    (hval : ∀ s p, parse s = some p → ValidPfx p)
    (hrt : ∀ p, ValidPfx p → parse (render p) = some p)
    (lines : List σ) :
    ∀ x, x ∈ reduce_cidrs parse render (reduce_cidrs parse render lines) ↔
      x ∈ reduce_cidrs parse render lines := by
  have hv0 : ∀ p ∈ lines.filterMap parse, ValidPfx p := by
    intro p hp
    obtain ⟨s, _, hs⟩ := List.mem_filterMap.mp hp
    exact hval s p hs
  have hvO : ∀ p ∈ (ReduceTrie.with_prefixes (lines.filterMap parse)).get_all_prefixes,
      ValidPfx p :=
    fun p hp => hv0 p (get_all_sub _ hv0 p hp)
  intro x
  unfold reduce_cidrs
  rw [filterMap_map_roundtrip parse render hrt _ hvO]
  rw [List.mem_map, List.mem_map]
  constructor
  · rintro ⟨y, hy, hr⟩
    exact ⟨y, (get_all_idem (lines.filterMap parse) hv0 y).mp hy, hr⟩
  · rintro ⟨y, hy, hr⟩
    exact ⟨y, (get_all_idem (lines.filterMap parse) hv0 y).mpr hy, hr⟩

/-- C9 witness. -/
theorem c9_witness :
    (∀ s p, idParse s = some p → ValidPfx p) ∧
    (∀ p, ValidPfx p → idParse (id p) = some p) ∧
    (∀ x, x ∈ reduce_cidrs idParse id (reduce_cidrs idParse id [cxA2, cxA1]) ↔
      x ∈ reduce_cidrs idParse id [cxA2, cxA1]) :=
  ⟨idParse_valid, idParse_roundtrip,
    c9_idempotent idParse id idParse_valid idParse_roundtrip [cxA2, cxA1]⟩

/-- C10 counterexample: on the valid input [192.168.0.0/16,
192.168.0.1/16] (same /16 network, different host bits), the trie keeps
the later spelling while the linear-scan reducer keeps the earlier one,
so the two reducers' output sets differ. -/
theorem c10_counterexample :
    ¬ (∀ x, x ∈ (ReduceTrie.with_prefixes [cxC1, cxC2]).get_all_prefixes ↔
        x ∈ (ReducePrefixList.with_prefixes [cxC1, cxC2]).get_all_prefixes) := by
  intro h
  have h1 := (h cxC1).mpr (by decide)
  revert h1
  decide

/-- C10 (amended): the trie-based and linear-scan reducers are
set-equivalent on every list of valid parsed prefixes that identifies
prefixes by their network (no two distinct members share family, length
and network address). -/
theorem c10_trie_list_equiv (l : List IpNet) (hv : ∀ p ∈ l, ValidPfx p)
    (hnd : NoDupNet l) :
    ∀ x, x ∈ (ReduceTrie.with_prefixes l).get_all_prefixes ↔
      x ∈ (ReducePrefixList.with_prefixes l).get_all_prefixes := by
  intro x
  rw [get_all_mem_iff l hv hnd x, rpl_get_all_mem_iff l hv hnd x]

/-- C10 witness. -/
theorem c10_witness :
    (∀ p ∈ [cxA1, cxC1, ⟨Family.v4, 167837696, 16⟩], ValidPfx p) ∧
    NoDupNet [cxA1, cxC1, ⟨Family.v4, 167837696, 16⟩] ∧
    (∀ x, x ∈ (ReduceTrie.with_prefixes
        [cxA1, cxC1, ⟨Family.v4, 167837696, 16⟩]).get_all_prefixes ↔
      x ∈ (ReducePrefixList.with_prefixes
        [cxA1, cxC1, ⟨Family.v4, 167837696, 16⟩]).get_all_prefixes) :=
  ⟨by decide, by decide,
    c10_trie_list_equiv [cxA1, cxC1, ⟨Family.v4, 167837696, 16⟩] (by decide) (by decide)⟩
